import Mathlib

/-!
Verification of the MIME export core of `gomail` (src/export.go).

The embedding translates the Go source into Lean:

* byte slices become `List ℕ` (each element a byte value);
* the two stateful line-wrapping writers (`base64LineWriter`, `qpLineWriter`)
  become explicit state-passing functions on their column counter;
* the exporter (`Export`, `Reset`, `openMultipart`, `closeMultipart`,
  `writeHeader`, `writeBody`, `addFiles`) becomes a pure function on a
  `MessageWriter` record; the byte-level rendering of the patched
  multipart writer, the base64/quoted-printable byte encoders, the buffer
  pool and the time source live outside src/ and are modelled from the
  spec where noted.

Go `int` arithmetic on the column counter is mirrored with `ℕ` (and `ℤ`
where the source tests a possibly-negative quantity); on every state the
source can actually reach (column at most 75 for the quoted-printable
writer, at most 76 for the base64 writer, proved below) the two agree.
-/

/-- Byte read `p[j]` of a Go slice, as a total function (0 beyond the end;
all in-range uses are proved in range or flagged by the `ok` field). -/
def byteAt (p : List ℕ) (j : ℕ) : ℕ := (p[j]?).getD 0

/-- Index of the first newline byte in a list, mirroring
`bytes.IndexAny(s, "\n")` (`none` mirrors the Go result `-1`). -/
def firstNl : List ℕ → Option ℕ
  | [] => none
  | c :: rest => if c = 10 then some 0 else (firstNl rest).map (· + 1)

/-- State of the line-length observer: `cur` counts the bytes of the
current (unterminated) output line, `prevCR` remembers whether the last
byte was a CR so that a CR immediately before an LF is not counted as
visible line content. -/
structure LineSt where
  cur : ℕ
  prevCR : Bool
deriving Repr, DecidableEq

/-- Visible lengths of all lines terminated inside the given byte stream,
together with the observer state after the stream (the pending partial
line).  An LF closes the current line and reports its visible length (a
CR immediately before the LF is part of the terminator and not counted);
any other byte extends the current line. -/
def visLines (s : LineSt) : List ℕ → List ℕ × LineSt
  | [] => ([], s)
  | c :: rest =>
    if c = 10 then
      let r := visLines ⟨0, false⟩ rest
      ((s.cur - (if s.prevCR then 1 else 0)) :: r.1, r.2)
    else
      visLines ⟨s.cur + 1, decide (c = 13)⟩ rest

/-- Split a byte stream at its CRLF markers (the claim's notion of line:
content between two CRLF markers, the markers excluded). -/
def crlfSplit : List ℕ → List (List ℕ)
  | [] => [[]]
  | 13 :: 10 :: rest => [] :: crlfSplit rest
  | c :: rest =>
    match crlfSplit rest with
    | [] => [[c]]
    | l :: ls => (c :: l) :: ls

/-- RFC 2045 maximum encoded line length (src/export.go, `maxLineLen`). -/
def maxLineLen : ℕ := 76

/-- The base64 line wrapper of src/export.go: only state is the running
column counter `lineLen`. -/
structure base64LineWriter where
  lineLen : ℕ
deriving Repr, DecidableEq

/-- Embedding of `base64LineWriter.Write` (src/export.go lines 218-232):
while the input would overflow the current line, emit `76 - lineLen`
bytes, emit CRLF, reset the counter; then buffer the tail into the
counter.  Returns the updated writer and the emitted bytes. -/
def base64LineWriter.Write (w : base64LineWriter) (p : List ℕ) :
    base64LineWriter × List ℕ :=
  if h : maxLineLen < p.length + w.lineLen then
    let k := maxLineLen - w.lineLen
    let r := base64LineWriter.Write ⟨0⟩ (p.drop k)
    (r.1, p.take k ++ [13, 10] ++ r.2)
  else
    (⟨w.lineLen + p.length⟩, p)
termination_by 2 * p.length + min w.lineLen 1
decreasing_by
  simp only [maxLineLen, List.length_drop] at *
  omega

/-- The quoted-printable line wrapper of src/export.go: only state is the
running column counter `lineLen`. -/
structure qpLineWriter where
  lineLen : ℕ
deriving Repr, DecidableEq

/-- Result of one `qpLineWriter.Write` call.  `out` is the emitted byte
stream.  Two instrumentation fields record what a theorem needs to
observe: `breaks` lists, for every line boundary the call emitted, how
many input bytes had been consumed when the boundary was placed (both for
a copied-through newline and for an inserted soft break), and `ok` is
false when the newline search `p[:maxLineLen-lineLen+2]` of the source
reaches past the end of the input slice `p` (Go would index out of the
bounds of `p` there). -/
structure QpRes where
  w : qpLineWriter
  out : List ℕ
  breaks : List ℕ
  ok : Bool
deriving Repr, DecidableEq

/-- Cut-point computation of `qpLineWriter.Write` (src/export.go lines
268-276): the candidate cut `76 - lineLen` is moved back when one of the
two preceding bytes is a literal `=` (byte 61), so that an `=XX` escape is
not cut after its first or second byte.  The first guard mirrors the Go
test `maxLineLen-w.lineLen-2 >= 0` over `int`. -/
def qpCut (l : ℕ) (p : List ℕ) : ℕ :=
  if 0 ≤ (maxLineLen : ℤ) - l - 2 ∧ byteAt p (maxLineLen - l - 2) = 61 then
    maxLineLen - l - 2
  else if byteAt p (maxLineLen - l - 1) = 61 then
    maxLineLen - l - 1
  else
    maxLineLen - l

theorem qpCut_le (l : ℕ) (p : List ℕ) : qpCut l p ≤ maxLineLen - l := by
  unfold qpCut
  split
  · omega
  · split <;> omega

theorem qpCut_eq_zero (l : ℕ) (p : List ℕ) (h : qpCut l p = 0) : 74 ≤ l := by
  unfold qpCut at h
  split at h
  · simp only [maxLineLen] at *
    omega
  · split at h <;> simp only [maxLineLen] at * <;> omega

/-- Embedding of `qpLineWriter.Write` (src/export.go lines 247-287).
Loop structure of the source: if the remaining input fits under the line
budget, buffer it; else search for a newline in the next
`maxLineLen - lineLen + 2` bytes and, when one is found that does not
strand a trailing escape, copy through it and reset the column; otherwise
cut at `qpCut`, emit the soft break `=\r\n` (bytes 61, 13, 10) and reset
the column.  The `take` in the newline search clamps at the end of the
input where the Go slice expression would leave the bounds of `p`; the
`ok` field records exactly when that happens. -/
def qpLineWriter.Write (w : qpLineWriter) (p : List ℕ) : QpRes :=
  if hp : p = [] then ⟨w, [], [], true⟩
  else if hfit : p.length < maxLineLen - w.lineLen then
    ⟨⟨w.lineLen + p.length⟩, p, [], true⟩
  else
    let win := maxLineLen - w.lineLen + 2
    let okw := decide (win ≤ p.length)
    match firstNl (p.take win) with
    | some i =>
      if i ≠ maxLineLen - w.lineLen + 1 ∨ byteAt p (i - 1) = 13 then
        let r := qpLineWriter.Write ⟨0⟩ (p.drop (i + 1))
        ⟨r.w, p.take (i + 1) ++ r.out,
          (i + 1) :: r.breaks.map (· + (i + 1)), okw && r.ok⟩
      else
        let t := qpCut w.lineLen p
        let r := qpLineWriter.Write ⟨0⟩ (p.drop t)
        ⟨r.w, p.take t ++ [61, 13, 10] ++ r.out,
          t :: r.breaks.map (· + t), okw && r.ok⟩
    | none =>
      let t := qpCut w.lineLen p
      let r := qpLineWriter.Write ⟨0⟩ (p.drop t)
      ⟨r.w, p.take t ++ [61, 13, 10] ++ r.out,
        t :: r.breaks.map (· + t), okw && r.ok⟩
termination_by 2 * p.length + min w.lineLen 1
decreasing_by
  · have hlen : 0 < p.length := List.length_pos.mpr hp
    simp only [List.length_drop]
    omega
  · have hlen : 0 < p.length := List.length_pos.mpr hp
    simp only [List.length_drop]
    rcases Nat.eq_zero_or_pos (qpCut w.lineLen p) with h0 | h0
    · have h74 := qpCut_eq_zero _ _ h0
      rw [h0]
      omega
    · omega
  · have hlen : 0 < p.length := List.length_pos.mpr hp
    simp only [List.length_drop]
    rcases Nat.eq_zero_or_pos (qpCut w.lineLen p) with h0 | h0
    · have h74 := qpCut_eq_zero _ _ h0
      rw [h0]
      omega
    · omega

theorem byteAt_append_left {a b : List ℕ} {j : ℕ} (h : j < a.length) :
    byteAt (a ++ b) j = byteAt a j := by
  simp [byteAt, List.getElem?_append, h]

theorem byteAt_drop (p : List ℕ) (k j : ℕ) :
    byteAt (p.drop k) j = byteAt p (k + j) := by
  simp [byteAt, List.getElem?_drop]

theorem byteAt_take {p : List ℕ} {k j : ℕ} (h : j < k) :
    byteAt (p.take k) j = byteAt p j := by
  simp [byteAt, List.getElem?_take, h]

theorem byteAt_replicate (n a j : ℕ) :
    byteAt (List.replicate n a) j = if j < n then a else 0 := by
  simp only [byteAt]
  split
  · rename_i h
    rw [List.getElem?_eq_getElem (by simpa using h)]
    simp
  · rename_i h
    rw [List.getElem?_eq_none (by simpa using Nat.le_of_not_lt h)]
    rfl

theorem byteAt_lt_length {p : List ℕ} {j : ℕ} (h : j < p.length) :
    byteAt p j = p[j] := by
  simp [byteAt, List.getElem?_eq_getElem h]

theorem firstNl_none {xs : List ℕ} (h : firstNl xs = none) : 10 ∉ xs := by
  induction xs with
  | nil => simp
  | cons c rest ih =>
    simp only [firstNl] at h
    split at h
    · exact absurd h (by simp)
    · rename_i hc
      simp only [Option.map_eq_none'] at h
      simp only [List.mem_cons, not_or]
      exact ⟨fun e => hc e.symm, ih h⟩

theorem firstNl_some {xs : List ℕ} {i : ℕ} (h : firstNl xs = some i) :
    i < xs.length ∧ byteAt xs i = 10 ∧ ∀ j < i, byteAt xs j ≠ 10 := by
  induction xs generalizing i with
  | nil => simp [firstNl] at h
  | cons c rest ih =>
    simp only [firstNl] at h
    split at h
    · rename_i hc
      subst hc
      obtain rfl : i = 0 := by simpa using h.symm
      refine ⟨by simp, by simp [byteAt], by omega⟩
    · rename_i hc
      simp only [Option.map_eq_some'] at h
      obtain ⟨i', hi', rfl⟩ := h
      obtain ⟨h1, h2, h3⟩ := ih hi'
      refine ⟨by simpa using h1, by simpa [byteAt] using h2, ?_⟩
      intro j hj
      match j with
      | 0 => simpa [byteAt] using hc
      | j + 1 =>
        have := h3 j (by omega)
        simpa [byteAt] using this

/-- Whether the byte just before the end of `s`-then-`xs` is a CR: the
last byte of `xs`, or the remembered flag when `xs` is empty. -/
def lastCR (s : LineSt) (xs : List ℕ) : Bool :=
  match xs.getLast? with
  | none => s.prevCR
  | some d => decide (d = 13)

theorem lastCR_cons (s : LineSt) (c : ℕ) (rest : List ℕ) :
    lastCR s (c :: rest) = lastCR ⟨s.cur + 1, decide (c = 13)⟩ rest := by
  cases rest with
  | nil => simp [lastCR]
  | cons d tl =>
    simp only [lastCR, List.getLast?_cons_cons]
    cases h : (d :: tl).getLast? with
    | none =>
      have : (d :: tl) ≠ [] := by simp
      simp [List.getLast?_eq_getLast _ this] at h
    | some x => rfl

theorem visLines_append (a b : List ℕ) (s : LineSt) :
    visLines s (a ++ b) =
      ((visLines s a).1 ++ (visLines (visLines s a).2 b).1,
        (visLines (visLines s a).2 b).2) := by
  induction a generalizing s with
  | nil => simp [visLines]
  | cons c rest ih =>
    simp only [List.cons_append, visLines]
    split
    · simp [ih]
    · simp [ih]

theorem visLines_bound (xs : List ℕ) (s : LineSt) :
    (∀ v ∈ (visLines s xs).1, v ≤ s.cur + xs.length) ∧
    (visLines s xs).2.cur ≤ s.cur + xs.length := by
  induction xs generalizing s with
  | nil => simp [visLines]
  | cons c rest ih =>
    simp only [visLines]
    split
    · constructor
      · intro v hv
        simp only [List.mem_cons] at hv
        rcases hv with rfl | hv
        · simp only [List.length_cons]
          omega
        · have := (ih ⟨0, false⟩).1 v hv
          simp only [List.length_cons] at *
          omega
      · have := (ih ⟨0, false⟩).2
        simp only [List.length_cons] at *
        omega
    · constructor
      · intro v hv
        have := (ih ⟨s.cur + 1, decide (c = 13)⟩).1 v hv
        simp only [List.length_cons] at *
        omega
      · have := (ih ⟨s.cur + 1, decide (c = 13)⟩).2
        simp only [List.length_cons] at *
        omega

theorem visLines_no_nl (xs : List ℕ) (s : LineSt) (h : 10 ∉ xs) :
    visLines s xs = ([], ⟨s.cur + xs.length, lastCR s xs⟩) := by
  induction xs generalizing s with
  | nil => simp [visLines, lastCR]
  | cons c rest ih =>
    have hc : c ≠ 10 := fun e => h (e ▸ List.mem_cons_self c rest)
    have hr : 10 ∉ rest := fun hm => h (List.mem_cons_of_mem _ hm)
    simp only [visLines, if_neg hc]
    rw [ih ⟨s.cur + 1, decide (c = 13)⟩ hr, lastCR_cons]
    have hlen : s.cur + 1 + rest.length = s.cur + (c :: rest).length := by
      simp only [List.length_cons]
      omega
    rw [hlen]

theorem visLines_chunk_nl (c : List ℕ) (s : LineSt) (h : 10 ∉ c) :
    visLines s (c ++ [10]) =
      ([s.cur + c.length - (if lastCR s c then 1 else 0)], ⟨0, false⟩) := by
  rw [visLines_append, visLines_no_nl c s h]
  simp [visLines]

theorem b64Write_vis (w : base64LineWriter) (p : List ℕ) :
    w.lineLen ≤ maxLineLen → ∀ s : LineSt, s.cur ≤ w.lineLen →
      (∀ v ∈ (visLines s (w.Write p).2).1, v ≤ maxLineLen) ∧
      (visLines s (w.Write p).2).2.cur ≤ (w.Write p).1.lineLen ∧
      (w.Write p).1.lineLen ≤ maxLineLen := by
  induction w, p using base64LineWriter.Write.induct with
  | case1 w p h k ih =>
    intro hl s hs
    have hk : k = maxLineLen - w.lineLen := rfl
    rw [hk] at ih
    rw [base64LineWriter.Write, dif_pos h]
    dsimp only
    have hchunk :
        p.take (maxLineLen - w.lineLen) ++ [13, 10] ++
          (base64LineWriter.Write ⟨0⟩ (p.drop (maxLineLen - w.lineLen))).2 =
        (p.take (maxLineLen - w.lineLen) ++ [13, 10]) ++
          (base64LineWriter.Write ⟨0⟩ (p.drop (maxLineLen - w.lineLen))).2 := by
      simp [List.append_assoc]
    have hb := visLines_bound (p.take (maxLineLen - w.lineLen)) s
    have hlen_take : (p.take (maxLineLen - w.lineLen)).length ≤
        maxLineLen - w.lineLen := by
      simp [List.length_take]
    have hcr : ∀ s' : LineSt, visLines s' [13, 10] = ([s'.cur], ⟨0, false⟩) := by
      intro s'
      simp [visLines]
    obtain ⟨ih1, ih2, ih3⟩ := ih (by simp [maxLineLen]) ⟨0, false⟩ (by simp)
    rw [visLines_append, visLines_append, hcr]
    constructor
    · intro v hv
      simp only [List.mem_append, List.mem_singleton] at hv
      rcases hv with (hv | rfl) | hv
      · have := hb.1 v hv
        omega
      · have := hb.2
        omega
      · exact ih1 v hv
    · exact ⟨ih2, ih3⟩
  | case2 w p h =>
    intro hl s hs
    rw [base64LineWriter.Write, dif_neg h]
    dsimp only
    have hb := visLines_bound p s
    refine ⟨fun v hv => ?_, ?_, ?_⟩
    · have := hb.1 v hv
      omega
    · have := hb.2
      omega
    · omega

theorem qpWrite_nil (w : qpLineWriter) : w.Write [] = ⟨w, [], [], true⟩ := by
  rw [qpLineWriter.Write]
  simp

theorem qpWrite_fit (w : qpLineWriter) (p : List ℕ) (h1 : p ≠ [])
    (h2 : p.length < maxLineLen - w.lineLen) :
    w.Write p = ⟨⟨w.lineLen + p.length⟩, p, [], true⟩ := by
  rw [qpLineWriter.Write, dif_neg h1, dif_pos h2]

theorem qpWrite_nl (w : qpLineWriter) (p : List ℕ) (i : ℕ) (h1 : p ≠ [])
    (h2 : ¬p.length < maxLineLen - w.lineLen)
    (h3 : firstNl (p.take (maxLineLen - w.lineLen + 2)) = some i)
    (h4 : i ≠ maxLineLen - w.lineLen + 1 ∨ byteAt p (i - 1) = 13) :
    w.Write p =
      ⟨(qpLineWriter.Write ⟨0⟩ (p.drop (i + 1))).w,
        p.take (i + 1) ++ (qpLineWriter.Write ⟨0⟩ (p.drop (i + 1))).out,
        (i + 1) ::
          (qpLineWriter.Write ⟨0⟩ (p.drop (i + 1))).breaks.map (· + (i + 1)),
        decide (maxLineLen - w.lineLen + 2 ≤ p.length) &&
          (qpLineWriter.Write ⟨0⟩ (p.drop (i + 1))).ok⟩ := by
  rw [qpLineWriter.Write, dif_neg h1, dif_neg h2]
  dsimp only
  rw [h3]
  dsimp only
  rw [if_pos h4]

theorem qpWrite_cut_some (w : qpLineWriter) (p : List ℕ) (i : ℕ) (h1 : p ≠ [])
    (h2 : ¬p.length < maxLineLen - w.lineLen)
    (h3 : firstNl (p.take (maxLineLen - w.lineLen + 2)) = some i)
    (h4 : ¬(i ≠ maxLineLen - w.lineLen + 1 ∨ byteAt p (i - 1) = 13)) :
    w.Write p =
      ⟨(qpLineWriter.Write ⟨0⟩ (p.drop (qpCut w.lineLen p))).w,
        p.take (qpCut w.lineLen p) ++ [61, 13, 10] ++
          (qpLineWriter.Write ⟨0⟩ (p.drop (qpCut w.lineLen p))).out,
        qpCut w.lineLen p ::
          (qpLineWriter.Write ⟨0⟩ (p.drop (qpCut w.lineLen p))).breaks.map
            (· + qpCut w.lineLen p),
        decide (maxLineLen - w.lineLen + 2 ≤ p.length) &&
          (qpLineWriter.Write ⟨0⟩ (p.drop (qpCut w.lineLen p))).ok⟩ := by
  rw [qpLineWriter.Write, dif_neg h1, dif_neg h2]
  dsimp only
  rw [h3]
  dsimp only
  rw [if_neg h4]

theorem qpWrite_cut_none (w : qpLineWriter) (p : List ℕ) (h1 : p ≠ [])
    (h2 : ¬p.length < maxLineLen - w.lineLen)
    (h3 : firstNl (p.take (maxLineLen - w.lineLen + 2)) = none) :
    w.Write p =
      ⟨(qpLineWriter.Write ⟨0⟩ (p.drop (qpCut w.lineLen p))).w,
        p.take (qpCut w.lineLen p) ++ [61, 13, 10] ++
          (qpLineWriter.Write ⟨0⟩ (p.drop (qpCut w.lineLen p))).out,
        qpCut w.lineLen p ::
          (qpLineWriter.Write ⟨0⟩ (p.drop (qpCut w.lineLen p))).breaks.map
            (· + qpCut w.lineLen p),
        decide (maxLineLen - w.lineLen + 2 ≤ p.length) &&
          (qpLineWriter.Write ⟨0⟩ (p.drop (qpCut w.lineLen p))).ok⟩ := by
  rw [qpLineWriter.Write, dif_neg h1, dif_neg h2]
  dsimp only
  rw [h3]

theorem getLast?_take_byteAt (p : List ℕ) (i : ℕ) (h1 : 0 < i)
    (h2 : i ≤ p.length) :
    (p.take i).getLast? = some (byteAt p (i - 1)) := by
  rw [List.getLast?_eq_getElem?]
  have hlen : (p.take i).length = i := by
    simp [List.length_take]
    omega
  rw [hlen]
  rw [List.getElem?_take, if_pos (by omega : i - 1 < i)]
  rw [List.getElem?_eq_getElem (by omega : i - 1 < p.length)]
  rw [byteAt_lt_length (by omega : i - 1 < p.length)]

theorem not_mem_take_of_byteAt (p : List ℕ) (n : ℕ)
    (h : ∀ j < n, byteAt p j ≠ 10) : 10 ∉ p.take n := by
  intro hm
  obtain ⟨j, hj, hget⟩ := List.mem_iff_getElem.mp hm
  have hjn : j < n := by
    have := hj
    simp [List.length_take] at this
    omega
  have hjp : j < p.length := by
    have := hj
    simp [List.length_take] at this
    omega
  apply h j hjn
  rw [byteAt_lt_length hjp]
  rw [List.getElem_take] at hget
  exact hget

theorem qpWrite_vis (w : qpLineWriter) (p : List ℕ) :
    w.lineLen ≤ 75 → ∀ s : LineSt, s.cur ≤ w.lineLen →
      (∀ v ∈ (visLines s (w.Write p).out).1, v ≤ 77) ∧
      (visLines s (w.Write p).out).2.cur ≤ (w.Write p).w.lineLen ∧
      (w.Write p).w.lineLen ≤ 75 := by
  induction w, p using qpLineWriter.Write.induct with
  | case1 w =>
    intro hl s hs
    rw [qpWrite_nil]
    dsimp only
    simp only [visLines]
    exact ⟨by simp, hs, hl⟩
  | case2 w p h1 h2 =>
    intro hl s hs
    rw [qpWrite_fit w p h1 h2]
    dsimp only
    have hmax : maxLineLen = 76 := rfl
    have hb := visLines_bound p s
    refine ⟨fun v hv => ?_, ?_, ?_⟩
    · have := hb.1 v hv
      omega
    · have := hb.2
      omega
    · omega
  | case3 w p h1 h2 win i h3 h4 ih =>
    intro hl s hs
    have hmax : maxLineLen = 76 := rfl
    have hwin : win = maxLineLen - w.lineLen + 2 := rfl
    rw [hwin] at h3
    rw [qpWrite_nl w p i h1 h2 h3 h4]
    dsimp only
    obtain ⟨hi_len, hi_10, hi_first⟩ := firstNl_some h3
    have hilen2 : i < p.length := by
      simp only [List.length_take] at hi_len
      omega
    have hi_winlt : i < maxLineLen - w.lineLen + 2 := by
      simp only [List.length_take] at hi_len
      omega
    have hpi : byteAt p i = 10 := by
      rw [byteAt_take hi_winlt] at hi_10
      exact hi_10
    have hfirst : ∀ j < i, byteAt p j ≠ 10 := by
      intro j hj
      have hx := hi_first j hj
      rw [byteAt_take (by omega)] at hx
      exact hx
    have hnot : 10 ∉ p.take i := not_mem_take_of_byteAt p i hfirst
    have htake : p.take (i + 1) = p.take i ++ [10] := by
      rw [List.take_succ]
      congr 1
      rw [List.getElem?_eq_getElem hilen2]
      have hgi : p[i] = 10 := by
        rw [← byteAt_lt_length hilen2]
        exact hpi
      simp [hgi]
    rw [htake, visLines_append, visLines_chunk_nl _ _ hnot]
    obtain ⟨ih1, ih2, ih3⟩ := ih (by simp) ⟨0, false⟩ (by simp)
    have hvlen : (p.take i).length = i := by
      simp only [List.length_take]
      omega
    constructor
    · intro v hv
      simp only [List.cons_append, List.nil_append, List.mem_cons] at hv
      rcases hv with rfl | hv
      · rcases h4 with h4 | h4
        · have hile : i ≤ maxLineLen - w.lineLen := by omega
          rw [hvlen]
          omega
        · by_cases hi0 : i = 0
          · subst hi0
            rw [hvlen]
            omega
          · have hgl : (p.take i).getLast? = some (byteAt p (i - 1)) :=
              getLast?_take_byteAt p i (by omega) (by omega)
            have hcarry : lastCR s (p.take i) = true := by
              simp [lastCR, hgl, h4]
            rw [hcarry, hvlen]
            simp only [if_pos]
            omega
      · exact ih1 v hv
    · exact ⟨ih2, ih3⟩
  | case4 w p h1 h2 win i h3 h4 t ih =>
    intro hl s hs
    have hmax : maxLineLen = 76 := rfl
    have hwin : win = maxLineLen - w.lineLen + 2 := rfl
    have ht : t = qpCut w.lineLen p := rfl
    rw [hwin] at h3
    rw [qpWrite_cut_some w p i h1 h2 h3 h4]
    dsimp only
    push_neg at h4
    obtain ⟨hi_eq, hcr13⟩ := h4
    obtain ⟨hi_len, hi_10, hi_first⟩ := firstNl_some h3
    have htle : qpCut w.lineLen p ≤ maxLineLen - w.lineLen := qpCut_le _ _
    have hplen : maxLineLen - w.lineLen ≤ p.length := by omega
    have hfirst : ∀ j < qpCut w.lineLen p, byteAt p j ≠ 10 := by
      intro j hj
      have hji : j < i := by omega
      have hx := hi_first j hji
      rw [byteAt_take (by omega)] at hx
      exact hx
    have hnot : 10 ∉ p.take (qpCut w.lineLen p) :=
      not_mem_take_of_byteAt _ _ hfirst
    have hnotc : 10 ∉ p.take (qpCut w.lineLen p) ++ [61, 13] := by
      simp only [List.mem_append, not_or]
      exact ⟨hnot, by simp⟩
    have hchunk :
        p.take (qpCut w.lineLen p) ++ [61, 13, 10] =
          (p.take (qpCut w.lineLen p) ++ [61, 13]) ++ [10] := by
      simp
    rw [hchunk, visLines_append, visLines_chunk_nl _ _ hnotc]
    obtain ⟨ih1, ih2, ih3⟩ := ih (by simp) ⟨0, false⟩ (by simp)
    have hvlen : (p.take (qpCut w.lineLen p) ++ [61, 13]).length =
        qpCut w.lineLen p + 2 := by
      simp only [List.length_append, List.length_take]
      simp
      omega
    have hcarry : lastCR s (p.take (qpCut w.lineLen p) ++ [61, 13]) = true := by
      simp [lastCR]
    constructor
    · intro v hv
      simp only [List.cons_append, List.nil_append, List.mem_cons] at hv
      rcases hv with rfl | hv
      · rw [hcarry, hvlen]
        simp only [if_pos]
        omega
      · exact ih1 v hv
    · exact ⟨ih2, ih3⟩
  | case5 w p h1 h2 win h3 t ih =>
    intro hl s hs
    have hmax : maxLineLen = 76 := rfl
    have hwin : win = maxLineLen - w.lineLen + 2 := rfl
    rw [hwin] at h3
    rw [qpWrite_cut_none w p h1 h2 h3]
    dsimp only
    have htle : qpCut w.lineLen p ≤ maxLineLen - w.lineLen := qpCut_le _ _
    have hplen : maxLineLen - w.lineLen ≤ p.length := by omega
    have hnot : 10 ∉ p.take (qpCut w.lineLen p) := by
      intro hm
      apply firstNl_none h3
      have heq : p.take (qpCut w.lineLen p) =
          (p.take (maxLineLen - w.lineLen + 2)).take (qpCut w.lineLen p) := by
        rw [List.take_take]
        congr 1
        omega
      rw [heq] at hm
      exact List.take_subset _ _ hm
    have hnotc : 10 ∉ p.take (qpCut w.lineLen p) ++ [61, 13] := by
      simp only [List.mem_append, not_or]
      exact ⟨hnot, by simp⟩
    have hchunk :
        p.take (qpCut w.lineLen p) ++ [61, 13, 10] =
          (p.take (qpCut w.lineLen p) ++ [61, 13]) ++ [10] := by
      simp
    rw [hchunk, visLines_append, visLines_chunk_nl _ _ hnotc]
    obtain ⟨ih1, ih2, ih3⟩ := ih (by simp) ⟨0, false⟩ (by simp)
    have hvlen : (p.take (qpCut w.lineLen p) ++ [61, 13]).length =
        qpCut w.lineLen p + 2 := by
      simp only [List.length_append, List.length_take]
      simp
      omega
    have hcarry : lastCR s (p.take (qpCut w.lineLen p) ++ [61, 13]) = true := by
      simp [lastCR]
    constructor
    · intro v hv
      simp only [List.cons_append, List.nil_append, List.mem_cons] at hv
      rcases hv with rfl | hv
      · rw [hcarry, hvlen]
        simp only [if_pos]
        omega
      · exact ih1 v hv
    · exact ⟨ih2, ih3⟩

/-- A whole sequence of `base64LineWriter.Write` calls threaded through the
writer state, starting from writer `w`; returns the final writer and the
concatenated output. -/
def b64SeqA (w : base64LineWriter) : List (List ℕ) → base64LineWriter × List ℕ
  | [] => (w, [])
  | p :: ps =>
    let r := w.Write p
    let rest := b64SeqA r.1 ps
    (rest.1, r.2 ++ rest.2)

/-- A sequence of `base64LineWriter.Write` calls starting from a zero
column counter. -/
def b64Seq (ws : List (List ℕ)) : base64LineWriter × List ℕ := b64SeqA ⟨0⟩ ws

/-- A whole sequence of `qpLineWriter.Write` calls threaded through the
writer state; `off` counts input bytes consumed by earlier calls so that
the returned break positions are relative to the concatenated input.
Returns the final writer, the concatenated output and the line-boundary
positions. -/
def qpSeqA (w : qpLineWriter) (off : ℕ) :
    List (List ℕ) → qpLineWriter × List ℕ × List ℕ
  | [] => (w, [], [])
  | p :: ps =>
    let r := w.Write p
    let rest := qpSeqA r.w (off + p.length) ps
    (rest.1, r.out ++ rest.2.1, r.breaks.map (· + off) ++ rest.2.2)

/-- A sequence of `qpLineWriter.Write` calls starting from a zero column
counter. -/
def qpSeq (ws : List (List ℕ)) : qpLineWriter × List ℕ × List ℕ :=
  qpSeqA ⟨0⟩ 0 ws

theorem b64SeqA_vis (ws : List (List ℕ)) (w : base64LineWriter) (s : LineSt)
    (hl : w.lineLen ≤ 76) (hs : s.cur ≤ w.lineLen) :
    (∀ v ∈ (visLines s (b64SeqA w ws).2).1, v ≤ 76) ∧
    (visLines s (b64SeqA w ws).2).2.cur ≤ (b64SeqA w ws).1.lineLen ∧
    (b64SeqA w ws).1.lineLen ≤ 76 := by
  induction ws generalizing w s with
  | nil =>
    simp only [b64SeqA, visLines]
    exact ⟨by simp, hs, hl⟩
  | cons p ps ih =>
    simp only [b64SeqA]
    rw [visLines_append]
    obtain ⟨h1, h2, h3⟩ := b64Write_vis w p hl s hs
    obtain ⟨g1, g2, g3⟩ := ih (w.Write p).1 (visLines s (w.Write p).2).2 h3 h2
    refine ⟨fun v hv => ?_, g2, g3⟩
    rcases List.mem_append.mp hv with hv | hv
    · exact h1 v hv
    · exact g1 v hv

theorem qpSeqA_vis (ws : List (List ℕ)) (w : qpLineWriter) (off : ℕ)
    (s : LineSt) (hl : w.lineLen ≤ 75) (hs : s.cur ≤ w.lineLen) :
    (∀ v ∈ (visLines s (qpSeqA w off ws).2.1).1, v ≤ 77) ∧
    (visLines s (qpSeqA w off ws).2.1).2.cur ≤ (qpSeqA w off ws).1.lineLen ∧
    (qpSeqA w off ws).1.lineLen ≤ 75 := by
  induction ws generalizing w off s with
  | nil =>
    simp only [qpSeqA, visLines]
    exact ⟨by simp, hs, hl⟩
  | cons p ps ih =>
    simp only [qpSeqA]
    rw [visLines_append]
    obtain ⟨h1, h2, h3⟩ := qpWrite_vis w p hl s hs
    obtain ⟨g1, g2, g3⟩ :=
      ih (w.Write p).w (off + p.length) (visLines s (w.Write p).out).2 h3 h2
    refine ⟨fun v hv => ?_, g2, g3⟩
    rcases List.mem_append.mp hv with hv | hv
    · exact h1 v hv
    · exact g1 v hv

theorem crlfSplit_ne_nil (xs : List ℕ) : crlfSplit xs ≠ [] := by
  induction xs using crlfSplit.induct with
  | case1 => simp [crlfSplit]
  | case2 rest ih => simp [crlfSplit]
  | case3 c rest hno hnil ih => exact absurd hnil ih
  | case4 c rest hno l ls heq ih =>
    rw [crlfSplit.eq_def]
    split
    · simp
    · simp
    · split <;> simp

theorem crlfSplit_crlf (rest : List ℕ) :
    crlfSplit (13 :: 10 :: rest) = [] :: crlfSplit rest := by
  rw [crlfSplit.eq_def]

theorem crlfSplit_cons_ne (c : ℕ) (rest : List ℕ) (hc : c ≠ 13) :
    crlfSplit (c :: rest) =
      (c :: (crlfSplit rest).headD []) :: (crlfSplit rest).tail := by
  rw [crlfSplit.eq_def]
  split
  · rename_i h
    simp at h
  · rename_i h
    rw [List.cons.injEq] at h
    exact absurd h.1 hc
  · rename_i hno h
    rw [List.cons.injEq] at h
    obtain ⟨rfl, rfl⟩ := h
    split
    · rename_i hsplit
      exact absurd hsplit (crlfSplit_ne_nil rest)
    · rename_i l ls hsplit
      rw [hsplit]
      simp

theorem crlfSplit_replicate97 (n : ℕ) (xs : List ℕ) :
    crlfSplit (List.replicate n 97 ++ xs) =
      (List.replicate n 97 ++ (crlfSplit xs).headD []) :: (crlfSplit xs).tail := by
  induction n with
  | zero =>
    simp only [List.replicate, List.nil_append]
    cases h : crlfSplit xs with
    | nil => exact absurd h (crlfSplit_ne_nil xs)
    | cons l ls => simp
  | succ n ih =>
    rw [List.replicate_succ, List.cons_append,
      crlfSplit_cons_ne 97 _ (by norm_num), ih]
    simp

theorem firstNl_replicate (n a : ℕ) (h : a ≠ 10) :
    firstNl (List.replicate n a) = none := by
  induction n with
  | zero => simp [firstNl]
  | succ n ih => simp [List.replicate_succ, firstNl, h, ih]

theorem crlfSplit_soft (xs : List ℕ) :
    crlfSplit (61 :: 13 :: 10 :: xs) = [61] :: crlfSplit xs := by
  rw [crlfSplit_cons_ne 61 _ (by norm_num), crlfSplit_crlf]
  simp

theorem qpWrite_rep97_cut (n : ℕ) (h : 76 ≤ n) :
    qpLineWriter.Write ⟨0⟩ (List.replicate n 97) =
      ⟨(qpLineWriter.Write ⟨0⟩ (List.replicate (n - 76) 97)).w,
        List.replicate 76 97 ++ [61, 13, 10] ++
          (qpLineWriter.Write ⟨0⟩ (List.replicate (n - 76) 97)).out,
        76 :: (qpLineWriter.Write ⟨0⟩ (List.replicate (n - 76) 97)).breaks.map
          (· + 76),
        decide (78 ≤ n) &&
          (qpLineWriter.Write ⟨0⟩ (List.replicate (n - 76) 97)).ok⟩ := by
  have h1 : (List.replicate n 97) ≠ [] := by
    simp only [ne_eq, List.replicate_eq_nil_iff]
    omega
  have h2 : ¬((List.replicate n 97).length <
      maxLineLen - (⟨0⟩ : qpLineWriter).lineLen) := by
    simp only [List.length_replicate, maxLineLen]
    omega
  have h3 : firstNl ((List.replicate n 97).take
      (maxLineLen - (⟨0⟩ : qpLineWriter).lineLen + 2)) = none := by
    rw [List.take_replicate]
    exact firstNl_replicate _ _ (by norm_num)
  have h74 : 74 < n := by omega
  have h75 : 75 < n := by omega
  have hqc : qpCut (⟨0⟩ : qpLineWriter).lineLen (List.replicate n 97) = 76 := by
    simp [qpCut, byteAt_replicate, maxLineLen, h74, h75]
  rw [qpWrite_cut_none _ _ h1 h2 h3, hqc]
  have htk : (List.replicate n 97).take 76 = List.replicate 76 97 := by
    rw [List.take_replicate]
    congr 1
    omega
  have hdr : (List.replicate n 97).drop 76 = List.replicate (n - 76) 97 := by
    rw [List.drop_replicate]
  have hok : decide (maxLineLen - (⟨0⟩ : qpLineWriter).lineLen + 2 ≤
      (List.replicate n 97).length) = decide (78 ≤ n) := by
    simp [maxLineLen]
  rw [htk, hdr, hok]

theorem qpWrite_rep97_fit (n : ℕ) (h : n < 76) :
    qpLineWriter.Write ⟨0⟩ (List.replicate n 97) =
      ⟨⟨n⟩, List.replicate n 97, [], true⟩ := by
  by_cases h0 : n = 0
  · subst h0
    simp [qpWrite_nil]
  · rw [qpWrite_fit _ _ (by simp [h0]) ?_]
    · simp
    · simp only [List.length_replicate, maxLineLen]
      omega

/-- C1: the claim asserts that for every sequence of Write calls to either
line-wrapping encoder starting from a zero column counter, every emitted
line, including a trailing soft-break `=`, is at most 76 characters.  This
holds for `base64LineWriter` but fails for `qpLineWriter`, whose soft
break appends an `=` after up to 76 content characters; the amended bound
is 76 for base64 and 77 for quoted-printable.  Lines are measured between
newline terminators, the terminator (and the CR of a CRLF) excluded. -/
theorem C1_encoder_line_length :
    (∀ ws : List (List ℕ),
      ∀ v ∈ (visLines ⟨0, false⟩ (b64Seq ws).2).1, v ≤ 76) ∧
    (∀ ws : List (List ℕ),
      ∀ v ∈ (visLines ⟨0, false⟩ (qpSeq ws).2.1).1, v ≤ 77) := by
  constructor
  · intro ws v hv
    exact (b64SeqA_vis ws ⟨0⟩ ⟨0, false⟩ (Nat.zero_le _) (Nat.le_refl _)).1 v hv
  · intro ws v hv
    exact
      (qpSeqA_vis ws ⟨0⟩ 0 ⟨0, false⟩ (Nat.zero_le _) (Nat.le_refl _)).1 v hv

/-- C1 counterexample: writing 160 bytes `a` to a fresh `qpLineWriter`
produces three CRLF-delimited segments whose middle segment (the content
between the two CRLF markers) is 77 characters long — 76 letters plus the
soft-break `=` — refuting the claimed 76-character bound. -/
theorem C1_encoder_line_length_counterexample :
    (crlfSplit (qpLineWriter.Write ⟨0⟩ (List.replicate 160 97)).out).length =
      3 ∧
    ((crlfSplit (qpLineWriter.Write ⟨0⟩ (List.replicate 160 97)).out).getD 1
      []).length = 77 := by
  have e3 : qpLineWriter.Write ⟨0⟩ (List.replicate 8 97) =
      ⟨⟨8⟩, List.replicate 8 97, [], true⟩ := qpWrite_rep97_fit 8 (by norm_num)
  have e2 : (qpLineWriter.Write ⟨0⟩ (List.replicate 84 97)).out =
      List.replicate 76 97 ++ [61, 13, 10] ++ List.replicate 8 97 := by
    rw [qpWrite_rep97_cut 84 (by norm_num)]
    dsimp only
    rw [show (84 : ℕ) - 76 = 8 by norm_num, e3]
  have e1 : (qpLineWriter.Write ⟨0⟩ (List.replicate 160 97)).out =
      List.replicate 76 97 ++ [61, 13, 10] ++
        (List.replicate 76 97 ++ [61, 13, 10] ++ List.replicate 8 97) := by
    rw [qpWrite_rep97_cut 160 (by norm_num)]
    dsimp only
    rw [show (160 : ℕ) - 76 = 84 by norm_num, e2]
  rw [e1]
  have hshape : List.replicate 76 97 ++ [61, 13, 10] ++
      (List.replicate 76 97 ++ [61, 13, 10] ++ List.replicate 8 97) =
      List.replicate 76 97 ++ (61 :: 13 :: 10 ::
        (List.replicate 76 97 ++ (61 :: 13 :: 10 :: List.replicate 8 97))) := by
    simp
  rw [hshape]
  have h8 : crlfSplit (List.replicate 8 97) = [List.replicate 8 97] := by
    have h := crlfSplit_replicate97 8 []
    simpa [crlfSplit] using h
  rw [crlfSplit_replicate97, crlfSplit_soft, crlfSplit_replicate97,
    crlfSplit_soft, h8]
  constructor
  · simp
  · simp

/-- C1 witness: the amended theorem applied at the one-call sequence
`[[10]]` (a single LF byte), whose only terminated line is empty. -/
theorem C1_encoder_line_length_witness :
    (0 ∈ (visLines ⟨0, false⟩ (b64Seq [[10]]).2).1 ∧ 0 ≤ 76) ∧
    (0 ∈ (visLines ⟨0, false⟩ (qpSeq [[10]]).2.1).1 ∧ 0 ≤ 77) := by
  have hb : (b64Seq [[10]]).2 = [10] := by
    rw [b64Seq]
    simp only [b64SeqA]
    rw [base64LineWriter.Write, dif_neg (by simp [maxLineLen])]
    simp [b64SeqA]
  have hq : (qpSeq [[10]]).2.1 = [10] := by
    rw [qpSeq]
    simp only [qpSeqA]
    rw [qpWrite_fit ⟨0⟩ [10] (by simp) (by simp [maxLineLen])]
    simp [qpSeqA]
  have hmb : 0 ∈ (visLines ⟨0, false⟩ (b64Seq [[10]]).2).1 := by
    rw [hb]
    simp [visLines]
  have hmq : 0 ∈ (visLines ⟨0, false⟩ (qpSeq [[10]]).2.1).1 := by
    rw [hq]
    simp [visLines]
  exact ⟨⟨hmb, C1_encoder_line_length.1 [[10]] 0 hmb⟩,
    ⟨hmq, C1_encoder_line_length.2 [[10]] 0 hmq⟩⟩

/-- C5: for every sequence of `base64LineWriter.Write` calls the column
counter (a natural number, hence never negative) never exceeds 76 at rest
between writes and dominates the visible length of the pending output
line; while the remaining input would overflow the current line, one loop
iteration emits exactly `76 - lineLen` bytes followed by CRLF and
continues with the counter reset to 0; a tail that fits is buffered into
the counter without a trailing break. -/
theorem C5_base64_counter_invariants :
    (∀ ws : List (List ℕ), (b64Seq ws).1.lineLen ≤ 76 ∧
      (visLines ⟨0, false⟩ (b64Seq ws).2).2.cur ≤ (b64Seq ws).1.lineLen) ∧
    (∀ (w : base64LineWriter) (p : List ℕ), 76 < p.length + w.lineLen →
      w.Write p =
        ((base64LineWriter.Write ⟨0⟩ (p.drop (76 - w.lineLen))).1,
          p.take (76 - w.lineLen) ++ [13, 10] ++
            (base64LineWriter.Write ⟨0⟩ (p.drop (76 - w.lineLen))).2) ∧
      (w.lineLen ≤ 76 → (p.take (76 - w.lineLen)).length = 76 - w.lineLen)) ∧
    (∀ (w : base64LineWriter) (p : List ℕ), p.length + w.lineLen ≤ 76 →
      w.Write p = (⟨w.lineLen + p.length⟩, p)) := by
  refine ⟨fun ws => ?_, fun w p h => ⟨?_, fun hl => ?_⟩, fun w p h => ?_⟩
  · obtain ⟨h1, h2, h3⟩ :=
      b64SeqA_vis ws ⟨0⟩ ⟨0, false⟩ (Nat.zero_le _) (Nat.le_refl _)
    exact ⟨h3, h2⟩
  · rw [base64LineWriter.Write, dif_pos (by simpa [maxLineLen] using h)]
    rfl
  · have hlen : 76 - w.lineLen ≤ p.length := by omega
    simp [List.length_take]
    omega
  · rw [base64LineWriter.Write, dif_neg (by simp [maxLineLen]; omega)]

/-- C5 witness: the overflow equation applied at a fresh writer and 77
zero bytes, and the buffering equation at a fresh writer and one byte. -/
theorem C5_base64_counter_invariants_witness :
    (base64LineWriter.Write ⟨0⟩ (List.replicate 77 0) =
      ((base64LineWriter.Write ⟨0⟩ ((List.replicate 77 0).drop 76)).1,
        (List.replicate 77 0).take 76 ++ [13, 10] ++
          (base64LineWriter.Write ⟨0⟩ ((List.replicate 77 0).drop 76)).2)) ∧
    base64LineWriter.Write ⟨0⟩ [5] = (⟨1⟩, [5]) := by
  constructor
  · have h :=
      (C5_base64_counter_invariants.2.1 ⟨0⟩ (List.replicate 77 0)
        (by simp)).1
    simpa using h
  · have h := C5_base64_counter_invariants.2.2 ⟨0⟩ [5] (by simp)
    simpa using h

/-- C6: the quoted-printable writer is not bounds-safe: on a fresh writer
(column 0) and an input of exactly 76 bytes, the newline search of the
source slices `p[:78]` past the end of the 76-byte slice `p` — the `ok`
instrumentation flag of the embedding records the out-of-bounds access. -/
theorem C6_qp_write_window_out_of_bounds :
    (qpLineWriter.Write ⟨0⟩ (List.replicate 76 97)).ok = false := by
  rw [qpWrite_rep97_cut 76 (by norm_num)]
  simp

/-- Hexadecimal digit bytes `0-9`, `A-F`, `a-f`, the bytes that may follow
a literal `=` in a valid quoted-printable stream. -/
def isHex (c : ℕ) : Prop :=
  (48 ≤ c ∧ c ≤ 57) ∨ (65 ≤ c ∧ c ≤ 70) ∨ (97 ≤ c ∧ c ≤ 102)

instance isHex.dec (c : ℕ) : Decidable (isHex c) := by
  unfold isHex
  infer_instance

/-- A valid quoted-printable byte stream: every literal `=` (byte 61)
begins a complete `=XX` escape whose two following bytes are hex digits. -/
def ValidQP (p : List ℕ) : Prop :=
  ∀ j < p.length, byteAt p j = 61 →
    j + 2 < p.length ∧ isHex (byteAt p (j + 1)) ∧ isHex (byteAt p (j + 2))

instance ValidQP.dec (p : List ℕ) : Decidable (ValidQP p) := by
  unfold ValidQP
  infer_instance

theorem isHex_ne {c : ℕ} (h : isHex c) : c ≠ 61 ∧ c ≠ 10 ∧ c ≠ 13 := by
  unfold isHex at h
  omega

theorem ValidQP_drop (p : List ℕ) (k : ℕ) (h : ValidQP p) :
    ValidQP (p.drop k) := by
  intro j hj hq
  rw [List.length_drop] at hj
  rw [byteAt_drop] at hq
  obtain ⟨h1, h2, h3⟩ := h (k + j) (by omega) hq
  refine ⟨by rw [List.length_drop]; omega, ?_, ?_⟩
  · rw [byteAt_drop, show k + (j + 1) = k + j + 1 by omega]
    exact h2
  · rw [byteAt_drop, show k + (j + 2) = k + j + 2 by omega]
    exact h3

theorem qpCut0 (p : List ℕ) :
    (byteAt p 74 = 61 ∧ qpCut 0 p = 74) ∨
    (byteAt p 74 ≠ 61 ∧ byteAt p 75 = 61 ∧ qpCut 0 p = 75) ∨
    (byteAt p 74 ≠ 61 ∧ byteAt p 75 ≠ 61 ∧ qpCut 0 p = 76) := by
  unfold qpCut
  have hg : (0 : ℤ) ≤ (maxLineLen : ℤ) - 0 - 2 := by simp [maxLineLen]
  by_cases h1 : byteAt p (maxLineLen - 0 - 2) = 61
  · rw [if_pos ⟨hg, h1⟩]
    refine Or.inl ⟨?_, by simp [maxLineLen]⟩
    simpa [maxLineLen] using h1
  · rw [if_neg (fun hx => h1 hx.2)]
    by_cases h2 : byteAt p (maxLineLen - 0 - 1) = 61
    · rw [if_pos h2]
      refine Or.inr (Or.inl ⟨?_, ?_, by simp [maxLineLen]⟩)
      · simpa [maxLineLen] using h1
      · simpa [maxLineLen] using h2
    · rw [if_neg h2]
      refine Or.inr (Or.inr ⟨?_, ?_, by simp [maxLineLen]⟩)
      · simpa [maxLineLen] using h1
      · simpa [maxLineLen] using h2

/-- A cut chosen by `qpCut` at column 0 never has a literal `=` in the two
bytes just before it, for a valid quoted-printable input. -/
theorem qpCut0_safe (p : List ℕ) (hv : ValidQP p) (j : ℕ) (hj : j < p.length)
    (hq : byteAt p j = 61) (h1 : qpCut 0 p ≤ j + 2) (h2 : j < qpCut 0 p) :
    False := by
  rcases qpCut0 p with ⟨hA, hc⟩ | ⟨hA, hB, hc⟩ | ⟨hA, hB, hc⟩
  · have hj73 : j = 72 ∨ j = 73 := by omega
    rcases hj73 with rfl | rfl
    · obtain ⟨hb1, hb2, hb3⟩ := hv 72 hj hq
      exact absurd hA (isHex_ne hb3).1
    · obtain ⟨hb1, hb2, hb3⟩ := hv 73 hj hq
      exact absurd hA (isHex_ne hb2).1
  · have hj74 : j = 73 ∨ j = 74 := by omega
    rcases hj74 with rfl | rfl
    · obtain ⟨hb1, hb2, hb3⟩ := hv 73 hj hq
      exact absurd hB (isHex_ne hb3).1
    · exact absurd hq hA
  · have hj75 : j = 74 ∨ j = 75 := by omega
    rcases hj75 with rfl | rfl
    · exact absurd hq hA
    · exact absurd hq hB

theorem qp_breaks_safe (w : qpLineWriter) (p : List ℕ) :
    w.lineLen = 0 → ValidQP p →
    ∀ t ∈ (w.Write p).breaks, ∀ j, j < p.length → byteAt p j = 61 →
      t ≤ j ∨ j + 3 ≤ t := by
  induction w, p using qpLineWriter.Write.induct with
  | case1 w =>
    intro hw hv t ht
    rw [qpWrite_nil] at ht
    simp at ht
  | case2 w p h1 h2 =>
    intro hw hv t ht
    rw [qpWrite_fit w p h1 h2] at ht
    simp at ht
  | case3 w p h1 h2 win i h3 h4 ih =>
    intro hw hv t ht j hj hq
    have hmax : maxLineLen = 76 := rfl
    have hwin : win = maxLineLen - w.lineLen + 2 := rfl
    rw [hwin] at h3
    rw [qpWrite_nl w p i h1 h2 h3 h4] at ht
    dsimp only at ht
    obtain ⟨hi_len, hi_10, hi_first⟩ := firstNl_some h3
    have hilen2 : i < p.length := by
      simp only [List.length_take] at hi_len
      omega
    have hi_winlt : i < maxLineLen - w.lineLen + 2 := by
      simp only [List.length_take] at hi_len
      omega
    have hpi : byteAt p i = 10 := by
      rw [byteAt_take hi_winlt] at hi_10
      exact hi_10
    have hnoteq : j ≠ i := by
      intro heq
      rw [heq, hpi] at hq
      omega
    have hnotprev : j + 1 ≠ i := by
      intro heq
      obtain ⟨hb1, hb2, hb3⟩ := hv j hj hq
      rw [heq] at hb2
      exact (isHex_ne hb2).2.1 hpi
    rcases List.mem_cons.mp ht with rfl | ht
    · by_contra hcon
      push_neg at hcon
      have : j = i ∨ j + 1 = i := by omega
      rcases this with hji | hji
      · exact hnoteq hji
      · exact hnotprev hji
    · obtain ⟨t', ht', rfl⟩ := List.mem_map.mp ht
      have ihq :=
        ih rfl (ValidQP_drop p (i + 1) hv) t' ht'
      by_cases hcase : i + 1 ≤ j
      · have hj' : j - (i + 1) < (p.drop (i + 1)).length := by
          rw [List.length_drop]
          omega
        have hq' : byteAt (p.drop (i + 1)) (j - (i + 1)) = 61 := by
          rw [byteAt_drop, show i + 1 + (j - (i + 1)) = j by omega]
          exact hq
        have := ihq (j - (i + 1)) hj' hq'
        omega
      · have : j = i ∨ j + 1 = i ∨ j + 2 ≤ i := by omega
        rcases this with hji | hji | hji
        · exact absurd hji hnoteq
        · exact absurd hji hnotprev
        · omega
  | case4 w p h1 h2 win i h3 h4 t ih =>
    intro hw hv tb ht j hj hq
    have hmax : maxLineLen = 76 := rfl
    have hwin : win = maxLineLen - w.lineLen + 2 := rfl
    have htv : t = qpCut w.lineLen p := rfl
    rw [hwin] at h3
    rw [qpWrite_cut_some w p i h1 h2 h3 h4] at ht
    dsimp only at ht
    rw [hw] at ht
    have hsafe : ∀ j', j' < p.length → byteAt p j' = 61 →
        ¬(j' < qpCut 0 p ∧ qpCut 0 p ≤ j' + 2) := by
      intro j' hj' hq' ⟨hc1, hc2⟩
      exact qpCut0_safe p hv j' hj' hq' hc2 hc1
    have htq : qpCut 0 p ≤ 76 := by
      have := qpCut_le 0 p
      omega
    rcases List.mem_cons.mp ht with rfl | ht
    · by_cases hcase : qpCut 0 p ≤ j
      · left
        omega
      · right
        by_contra hcon
        exact hsafe j hj hq ⟨by omega, by omega⟩
    · obtain ⟨t', ht', rfl⟩ := List.mem_map.mp ht
      rw [htv, hw] at ih
      have ihq' := ih rfl (ValidQP_drop p (qpCut 0 p) hv) t' ht'
      by_cases hcase : qpCut 0 p ≤ j
      · have hj' : j - qpCut 0 p < (p.drop (qpCut 0 p)).length := by
          rw [List.length_drop]
          omega
        have hq' : byteAt (p.drop (qpCut 0 p)) (j - qpCut 0 p) = 61 := by
          rw [byteAt_drop, show qpCut 0 p + (j - qpCut 0 p) = j by omega]
          exact hq
        have := ihq' (j - qpCut 0 p) hj' hq'
        omega
      · by_cases hclose : qpCut 0 p ≤ j + 2
        · exact absurd ⟨by omega, hclose⟩ (hsafe j hj hq)
        · right
          omega
  | case5 w p h1 h2 win h3 t ih =>
    intro hw hv tb ht j hj hq
    have hmax : maxLineLen = 76 := rfl
    have hwin : win = maxLineLen - w.lineLen + 2 := rfl
    have htv : t = qpCut w.lineLen p := rfl
    rw [hwin] at h3
    rw [qpWrite_cut_none w p h1 h2 h3] at ht
    dsimp only at ht
    rw [hw] at ht
    have hsafe : ∀ j', j' < p.length → byteAt p j' = 61 →
        ¬(j' < qpCut 0 p ∧ qpCut 0 p ≤ j' + 2) := by
      intro j' hj' hq' ⟨hc1, hc2⟩
      exact qpCut0_safe p hv j' hj' hq' hc2 hc1
    rcases List.mem_cons.mp ht with rfl | ht
    · by_cases hcase : qpCut 0 p ≤ j
      · left
        omega
      · right
        by_contra hcon
        exact hsafe j hj hq ⟨by omega, by omega⟩
    · obtain ⟨t', ht', rfl⟩ := List.mem_map.mp ht
      rw [htv, hw] at ih
      have ihq' := ih rfl (ValidQP_drop p (qpCut 0 p) hv) t' ht'
      by_cases hcase : qpCut 0 p ≤ j
      · have hj' : j - qpCut 0 p < (p.drop (qpCut 0 p)).length := by
          rw [List.length_drop]
          omega
        have hq' : byteAt (p.drop (qpCut 0 p)) (j - qpCut 0 p) = 61 := by
          rw [byteAt_drop, show qpCut 0 p + (j - qpCut 0 p) = j by omega]
          exact hq
        have := ihq' (j - qpCut 0 p) hj' hq'
        omega
      · by_cases hclose : qpCut 0 p ≤ j + 2
        · exact absurd ⟨by omega, hclose⟩ (hsafe j hj hq)
        · right
          omega

/-- C2: the claim asserts that for every input byte sequence written
through `qpLineWriter.Write` no escape triplet is ever split across a line
boundary.  Amended: the guarantee holds for a single Write call starting
at column 0 on a valid quoted-printable input (every line boundary the
call places, whether a copied newline or an inserted soft break, lies
outside every `=XX` escape); across multiple Write calls it fails, because
the check can only see the bytes of the current slice. -/
theorem C2_no_escape_split (p : List ℕ) (hv : ValidQP p) :
    ∀ t ∈ (qpLineWriter.Write ⟨0⟩ p).breaks,
      ∀ j, j < p.length → byteAt p j = 61 → t ≤ j ∨ j + 3 ≤ t :=
  fun t ht j hj hq => qp_breaks_safe ⟨0⟩ p rfl hv t ht j hj hq

/-- First Write call of the C2 counterexample: 74 letters and the `=` of
an escape whose hex digits arrive only with the second call. -/
def c2p1 : List ℕ := List.replicate 74 97 ++ [61]

/-- Second Write call of the C2 counterexample: the digits `41` completing
the escape, then ten filler bytes. -/
def c2p2 : List ℕ := 52 :: 49 :: List.replicate 10 120

/-- C2 counterexample: writing the valid quoted-printable stream
`c2p1 ++ c2p2` in two Write calls places a line boundary at input
position 76, strictly inside the escape `=41` that starts at position 74
(its `=4` ends the first line and the `1` starts the next), refuting the
claim for multi-call sequences. -/
theorem C2_no_escape_split_counterexample :
    ValidQP (c2p1 ++ c2p2) ∧
    76 ∈ (qpSeq [c2p1, c2p2]).2.2 ∧
    byteAt (c2p1 ++ c2p2) 74 = 61 ∧ 74 < 76 ∧ 76 < 74 + 3 := by
  have hc1 : qpLineWriter.Write ⟨0⟩ c2p1 = ⟨⟨75⟩, c2p1, [], true⟩ := by
    rw [qpWrite_fit ⟨0⟩ c2p1 (by decide) (by decide)]
    rfl
  have hbr2 : (qpLineWriter.Write ⟨75⟩ c2p2).breaks = [1] := by
    rw [qpWrite_cut_none ⟨75⟩ c2p2 (by decide) (by decide) (by decide)]
    dsimp only
    rw [show qpCut (⟨75⟩ : qpLineWriter).lineLen c2p2 = 1 by decide]
    rw [show c2p2.drop 1 = 49 :: List.replicate 10 120 by decide]
    rw [qpWrite_fit ⟨0⟩ _ (by decide) (by decide)]
    rfl
  have hseq : (qpSeq [c2p1, c2p2]).2.2 = [76] := by
    rw [qpSeq]
    simp only [qpSeqA]
    rw [hc1]
    dsimp only
    rw [show (0 : ℕ) + c2p1.length = 75 by decide]
    simp [hbr2]
  refine ⟨by decide, ?_, by decide, by norm_num, by norm_num⟩
  rw [hseq]
  simp

/-- Input for the C2 witness: 80 letters then a complete escape `=41`. -/
def c2wp : List ℕ := List.replicate 80 97 ++ [61, 52, 49]

/-- C2 witness: the amended theorem applied to a concrete valid input
whose single soft break sits at position 76, safely before the escape at
position 80. -/
theorem C2_no_escape_split_witness :
    ValidQP c2wp ∧ 76 ∈ (qpLineWriter.Write ⟨0⟩ c2wp).breaks ∧
    (76 ≤ 80 ∨ 80 + 3 ≤ 76) := by
  have hv : ValidQP c2wp := by decide
  have hbr : (qpLineWriter.Write ⟨0⟩ c2wp).breaks = [76] := by
    rw [qpWrite_cut_none ⟨0⟩ c2wp (by decide) (by decide) (by decide)]
    dsimp only
    rw [show qpCut (⟨0⟩ : qpLineWriter).lineLen c2wp = 76 by decide]
    rw [show c2wp.drop 76 = List.replicate 4 97 ++ [61, 52, 49] by decide]
    rw [qpWrite_fit ⟨0⟩ _ (by decide) (by decide)]
    rfl
  have hmem : 76 ∈ (qpLineWriter.Write ⟨0⟩ c2wp).breaks := by
    rw [hbr]
    simp
  exact ⟨hv, hmem,
    C2_no_escape_split c2wp hv 76 hmem 80 (by decide) (by decide)⟩

/-- Transfer encodings of the message model.  The Go `Encoding` string
type and its constants are declared outside src/; `writeBody` compares the
encoding against `Base64`, `Base64PreEncoded` and `Unencoded` and treats
everything else as quoted-printable, which this inductive mirrors. -/
inductive Encoding where
  | base64
  | base64PreEncoded
  | unencoded
  | quotedPrintable
deriving Repr, DecidableEq

/-- Modelled from the spec: the wire names of the transfer encodings
(`string(msg.encoding)` in the source; the string constants live outside
src/ — section 6 of the spec names `base64` and `quoted-printable`). -/
def encStr : Encoding → String
  | .base64 => "base64"
  | .base64PreEncoded => "base64"
  | .unencoded => "8bit"
  | .quotedPrintable => "quoted-printable"

/-- A Go `map[string][]string` header, embedded as an association list
with at most one entry per key (`hset` replaces in place, so iteration
order of the Go map is immaterial to lookups). -/
abbrev Header := List (String × List String)

/-- Map update `h[k] = v`. -/
def hset (h : Header) (k : String) (v : List String) : Header :=
  match h with
  | [] => [(k, v)]
  | (k', v') :: t => if k' = k then (k, v) :: t else (k', v') :: hset t k v

/-- Map lookup `h[k]`. -/
def hget (h : Header) (k : String) : Option (List String) :=
  match h with
  | [] => none
  | (k', v') :: t => if k' = k then some v' else hget t k

theorem hget_hset_self (h : Header) (k : String) (v : List String) :
    hget (hset h k v) k = some v := by
  induction h with
  | nil => simp [hset, hget]
  | cons kv t ih =>
    obtain ⟨k', v'⟩ := kv
    by_cases he : k' = k
    · simp [hset, hget, he]
    · simp [hset, hget, he, ih]

theorem hget_hset_ne (h : Header) (k k' : String) (v : List String)
    (hne : k ≠ k') : hget (hset h k v) k' = hget h k' := by
  induction h with
  | nil => simp [hset, hget, hne]
  | cons kv t ih =>
    obtain ⟨k0, v0⟩ := kv
    by_cases he : k0 = k
    · subst he
      simp [hset, hget, hne]
    · simp only [hset, if_neg he, hget]
      by_cases he' : k0 = k'
      · simp [he']
      · simp [he', ih]

/-- A plain body part: a content type and a body buffer
(`part` in the source; the struct is declared outside src/ and its two
fields are read by `Export`). -/
structure part where
  contentType : String
  body : List ℕ
deriving Repr, DecidableEq

/-- An embedded or attached file as read by `addFiles` (the struct is
declared outside src/; `Export` reads the five fields used here). -/
structure File where
  Name : String
  MimeType : String
  Content : List ℕ
  ContentID : String
  encoding : Encoding
deriving Repr, DecidableEq

/-- Items written into the output buffer.  Modelled from the spec: the
byte-level rendering of the patched multipart writer (boundary lines,
header serialization) and of the byte encoders lives outside src/, so the
buffer records the structure of what was written: a nested part header, a
body streamed through the encoder chosen by `writeBody` (the line
wrappers themselves are verified separately above), or a terminating
boundary marker. -/
inductive BufItem where
  | partHeader (h : Header)
  | encoded (enc : Encoding) (body : List ℕ)
  | closeBoundary (b : String)
deriving Repr, DecidableEq

/-- Call log of `openMultipart`/`closeMultipart`, instrumentation for the
open/close discipline. -/
inductive MCall where
  | openM (kind : String)
  | closeM
deriving Repr, DecidableEq

/-- Modelled from the spec: `patchedMultipart.NewWriter` generates an
opaque unique boundary token (its randomness lives outside src/);
abstracted to a token indexed by the current nesting depth. -/
def newBoundary (d : ℕ) : String := "boundary" ++ toString d

/-- The `messageWriter` of the source (src lines 84-91): the (copied)
top-level header map, the output buffer, the stack of open multipart
writers (kept as their boundary tokens, mirroring the `writers` array
indexed by depth) and the nesting depth; plus the `trace` call log
instrumentation. -/
structure MessageWriter where
  header : Header
  buf : List BufItem
  depth : ℕ
  bounds : List String
  trace : List MCall
deriving Repr, DecidableEq

/-- Embedding of `createPart` (src lines 127-130): a new nested part with
the given headers inside the innermost open section. -/
def MessageWriter.createPart (w : MessageWriter) (h : Header) :
    MessageWriter :=
  { w with buf := w.buf ++ [.partHeader h] }

/-- Embedding of `openMultipart` (src lines 113-125): record the new
boundary, write `multipart/<kind>; boundary=<token>` as the top-level
Content-Type at depth 0 or as a nested part header otherwise, and
increment the depth. -/
def MessageWriter.openMultipart (w : MessageWriter) (mimeType : String) :
    MessageWriter :=
  let boundary := newBoundary w.depth
  let contentType := "multipart/" ++ mimeType ++ "; boundary=" ++ boundary
  let w' :=
    if w.depth = 0 then
      { w with header := hset w.header "Content-Type" [contentType] }
    else
      w.createPart [("Content-Type", [contentType])]
  { w' with
    depth := w.depth + 1
    bounds := boundary :: w.bounds
    trace := w.trace ++ [.openM mimeType] }

/-- Embedding of `closeMultipart` (src lines 132-137): when the depth is
positive, finalize the innermost section (its terminating boundary marker
goes to the buffer) and decrement the depth; otherwise do nothing. -/
def MessageWriter.closeMultipart (w : MessageWriter) : MessageWriter :=
  if w.depth = 0 then w
  else
    { w with
      buf := w.buf ++ [.closeBoundary (w.bounds.headD "")]
      depth := w.depth - 1
      bounds := w.bounds.tail
      trace := w.trace ++ [.closeM] }

/-- Embedding of `writeHeader` (src lines 166-174): at depth 0 the fields
merge into the message-level header map, otherwise they become a nested
part header. -/
def MessageWriter.writeHeader (w : MessageWriter) (h : Header) :
    MessageWriter :=
  if w.depth = 0 then
    { w with header := h.foldl (fun acc kv => hset acc kv.1 kv.2) w.header }
  else
    w.createPart h

/-- Embedding of `writeBody` (src lines 176-198): the body is streamed
through the encoder selected by `enc` into the current output (the buffer
at depth 0, the innermost part's writer otherwise; both reach the same
underlying buffer). -/
def MessageWriter.writeBody (w : MessageWriter) (body : List ℕ)
    (enc : Encoding) : MessageWriter :=
  { w with buf := w.buf ++ [.encoded enc body] }

/-- Embedding of `write` (src lines 161-164). -/
def MessageWriter.write (w : MessageWriter) (h : Header) (body : List ℕ)
    (enc : Encoding) : MessageWriter :=
  (w.writeHeader h).writeBody body enc

/-- The per-file headers built by `addFiles` (src lines 139-158), in the
source's assignment order. -/
def fileHeader (f : File) (isAttachment : Bool) : Header :=
  let base := [("Content-Type", [f.MimeType ++ "; name=\"" ++ f.Name ++ "\""]),
    ("Content-Transfer-Encoding", [encStr .base64])]
  if isAttachment then
    base ++ [("Content-Disposition",
      ["attachment; filename=\"" ++ f.Name ++ "\""])]
  else
    base ++ [("Content-Disposition",
        ["inline; filename=\"" ++ f.Name ++ "\""]),
      ("Content-ID",
        [if f.ContentID ≠ "" then "<" ++ f.ContentID ++ ">"
         else "<" ++ f.Name ++ ">"])]

/-- Embedding of `addFiles` (src lines 139-159). -/
def MessageWriter.addFiles (w : MessageWriter) (files : List File)
    (isAttachment : Bool) : MessageWriter :=
  files.foldl
    (fun w f => w.write (fileHeader f isAttachment) f.Content f.encoding) w

/-- The message model: the fields of the Go `Message` struct that
src/export.go reads or writes (the struct itself is declared outside
src/). -/
structure Message where
  header : Header
  parts : List part
  embedded : List File
  attachments : List File
  charset : String
  encoding : Encoding
  msgWriter : Option MessageWriter
deriving Repr, DecidableEq

/-- Embedding of `hasMixedPart` (src lines 72-74). -/
def Message.hasMixedPart (msg : Message) : Bool :=
  decide ((0 < msg.parts.length ∧ 0 < msg.attachments.length) ∨
    1 < msg.attachments.length)

/-- Embedding of `hasRelatedPart` (src lines 76-78). -/
def Message.hasRelatedPart (msg : Message) : Bool :=
  decide ((0 < msg.parts.length ∧ 0 < msg.embedded.length) ∨
    1 < msg.embedded.length)

/-- Embedding of `hasAlternativePart` (src lines 80-82). -/
def Message.hasAlternativePart (msg : Message) : Bool :=
  decide (1 < msg.parts.length)

/-- Embedding of `newMessageWriter` (src lines 93-108): copy the caller's
header map, then default `Mime-Version` to `1.0` and `Date` to the
formatted current time when absent.  `dateStr` stands for
`msg.FormatDate(now())`: the formatted instant of the injectable time
source `now` (the clock and the formatter live outside src/). -/
def newMessageWriter (msg : Message) (dateStr : String) : MessageWriter :=
  let h := msg.header
  let h :=
    if (hget h "Mime-Version").isNone then hset h "Mime-Version" ["1.0"]
    else h
  let h := if (hget h "Date").isNone then hset h "Date" [dateStr] else h
  ⟨h, [], 0, [], []⟩

/-- The `net/mail.Message` produced by `export` (src lines 200-202). -/
structure MailMessage where
  header : Header
  body : List BufItem
deriving Repr, DecidableEq

/-- Embedding of `messageWriter.export` (src lines 200-202). -/
def MessageWriter.export (w : MessageWriter) : MailMessage :=
  ⟨w.header, w.buf⟩

/-- The per-part headers built inside the `Export` loop
(src lines 29-35), in the source's assignment order. -/
def partHeader (msg : Message) (part : part) : Header :=
  [("Mime-Version", ["1.0"]),
    ("Content-Type", [part.contentType ++ "; charset=" ++ msg.charset]),
    ("Content-Transfer-Encoding", [encStr msg.encoding])]

/-- The writer state built by `Export` (src lines 15-53): open the needed
wrappers outer-to-inner, write the parts, close alternative, write the
embedded files, close related, write the attachments, close mixed. -/
def Message.exportW (msg : Message) (dateStr : String) : MessageWriter :=
  let w := newMessageWriter msg dateStr
  let w := if msg.hasMixedPart then w.openMultipart "mixed" else w
  let w := if msg.hasRelatedPart then w.openMultipart "related" else w
  let w := if msg.hasAlternativePart then w.openMultipart "alternative" else w
  let w := msg.parts.foldl
    (fun w part => w.write (partHeader msg part) part.body msg.encoding) w
  let w := if msg.hasAlternativePart then w.closeMultipart else w
  let w := w.addFiles msg.embedded false
  let w := if msg.hasRelatedPart then w.closeMultipart else w
  let w := w.addFiles msg.attachments true
  if msg.hasMixedPart then w.closeMultipart else w

/-- Embedding of `Export` (src lines 15-53): the message after the call
(`msg.msgWriter = w` on line 50 is its only mutation of the message) and
the returned `mail.Message`. -/
def Message.Export (msg : Message) (dateStr : String) :
    Message × MailMessage :=
  let w := msg.exportW dateStr
  ({ msg with msgWriter := some w }, w.export)

/-- A pooled buffer: a part's body buffer or the root writer's buffer
(in Go both are `*bytes.Buffer`; the model keeps their contents). -/
inductive PoolBuf where
  | partBuf (b : List ℕ)
  | writerBuf (b : List BufItem)
deriving Repr, DecidableEq

/-- Embedding of `Reset` (src lines 58-70): return each part's body buffer
and, when an export has occurred, the writer's buffer to the pool, then
clear parts, the stored writer, the header map, attachments and embedded
files.  `putBuffer` and the shared pool live outside src/; modelled from
the spec as appending the released buffers to an explicit pool list. -/
def Message.Reset (msg : Message) (pool : List PoolBuf) :
    Message × List PoolBuf :=
  let pool := pool ++ msg.parts.map (fun part => PoolBuf.partBuf part.body)
  let pool := pool ++
    (match msg.msgWriter with
      | some w => [PoolBuf.writerBuf w.buf]
      | none => [])
  ({ msg with
      parts := []
      msgWriter := none
      header := []
      attachments := []
      embedded := [] }, pool)

/-- Modelled from the spec (section 4.1): the structure-classifier formula
for the mixed wrapper, stated over counts for comparison with the
source's `hasMixedPart`. -/
def needsMixed (numParts numAttachments : ℕ) : Prop :=
  (numParts > 0 ∧ numAttachments > 0) ∨ numAttachments > 1

/-- Modelled from the spec (section 4.1): the classifier formula for the
related wrapper. -/
def needsRelated (numParts numEmbedded : ℕ) : Prop :=
  (numParts > 0 ∧ numEmbedded > 0) ∨ numEmbedded > 1

/-- Modelled from the spec (section 4.1): the classifier formula for the
alternative wrapper. -/
def needsAlternative (numParts : ℕ) : Prop := numParts > 1

/-- A message with the given counts of parts, embedded files and
attachments, for the truth-table reading of C3. -/
def mkMsg (np ne na : ℕ) : Message :=
  ⟨[], List.replicate np ⟨"text/plain", []⟩,
    List.replicate ne ⟨"e", "image/png", [], "", .base64⟩,
    List.replicate na ⟨"a", "application/pdf", [], "", .base64⟩,
    "UTF-8", .quotedPrintable, none⟩

/-- C3: for every message, `hasMixedPart`, `hasRelatedPart` and
`hasAlternativePart` compute exactly the spec's classifier formulas over
the counts of parts, embedded files and attachments; instantiating the
counts (which covers the exhaustive small-count truth table) agrees with
the formulas as well. -/
theorem C3_structure_classifier :
    (∀ msg : Message,
      (msg.hasMixedPart = true ↔
        needsMixed msg.parts.length msg.attachments.length) ∧
      (msg.hasRelatedPart = true ↔
        needsRelated msg.parts.length msg.embedded.length) ∧
      (msg.hasAlternativePart = true ↔
        needsAlternative msg.parts.length)) ∧
    (∀ np ne na : ℕ,
      ((mkMsg np ne na).hasMixedPart = true ↔ needsMixed np na) ∧
      ((mkMsg np ne na).hasRelatedPart = true ↔ needsRelated np ne) ∧
      ((mkMsg np ne na).hasAlternativePart = true ↔
        needsAlternative np)) := by
  constructor
  · intro msg
    refine ⟨?_, ?_, ?_⟩ <;>
      simp [Message.hasMixedPart, Message.hasRelatedPart,
        Message.hasAlternativePart, needsMixed, needsRelated,
        needsAlternative]
  · intro np ne na
    refine ⟨?_, ?_, ?_⟩ <;>
      simp [mkMsg, Message.hasMixedPart, Message.hasRelatedPart,
        Message.hasAlternativePart, needsMixed, needsRelated,
        needsAlternative]

/-- C8: Export borrows the message read-only: after the call, the header
map, parts, embedded files, attachments and the initial settings are all
unchanged; the only mutation is storing the writer, whose (copied) header
map is the one the exported result carries. -/
theorem C8_export_read_only (msg : Message) (dateStr : String) :
    ((msg.Export dateStr).1).header = msg.header ∧
    ((msg.Export dateStr).1).parts = msg.parts ∧
    ((msg.Export dateStr).1).embedded = msg.embedded ∧
    ((msg.Export dateStr).1).attachments = msg.attachments ∧
    ((msg.Export dateStr).1).charset = msg.charset ∧
    ((msg.Export dateStr).1).encoding = msg.encoding ∧
    ((msg.Export dateStr).1).msgWriter = some (msg.exportW dateStr) ∧
    (msg.Export dateStr).2.header = (msg.exportW dateStr).header :=
  ⟨rfl, rfl, rfl, rfl, rfl, rfl, rfl, rfl⟩

/-- C9: Reset returns every part body buffer and, when an export has
occurred, the root writer's buffer to the pool, clears exactly the
transient export state (parts, stored writer, header map, attachments,
embedded files) and preserves the initial settings (charset, default
encoding). -/
theorem C9_reset (msg : Message) (pool : List PoolBuf) :
    (msg.Reset pool).2 =
      pool ++ msg.parts.map (fun p => PoolBuf.partBuf p.body) ++
        (match msg.msgWriter with
          | some w => [PoolBuf.writerBuf w.buf]
          | none => []) ∧
    (msg.Reset pool).1.parts = [] ∧
    (msg.Reset pool).1.msgWriter = none ∧
    (msg.Reset pool).1.header = [] ∧
    (msg.Reset pool).1.attachments = [] ∧
    (msg.Reset pool).1.embedded = [] ∧
    (msg.Reset pool).1.charset = msg.charset ∧
    (msg.Reset pool).1.encoding = msg.encoding :=
  ⟨rfl, rfl, rfl, rfl, rfl, rfl, rfl, rfl⟩

/-- C10: `closeMultipart` is a no-op at depth 0 (the writer is returned
unchanged in every field); at positive depth it writes the terminating
boundary marker of the innermost open section and decrements the depth by
exactly one, leaving the header map alone. -/
theorem C10_close_multipart (w : MessageWriter) :
    (w.depth = 0 → w.closeMultipart = w) ∧
    (0 < w.depth →
      (w.closeMultipart).depth = w.depth - 1 ∧
      (w.closeMultipart).header = w.header ∧
      (w.closeMultipart).buf =
        w.buf ++ [.closeBoundary (w.bounds.headD "")]) := by
  constructor
  · intro h
    rw [MessageWriter.closeMultipart, if_pos h]
  · intro h
    rw [MessageWriter.closeMultipart, if_neg (by omega)]
    exact ⟨rfl, rfl, rfl⟩

/-- C10 witness: the no-op branch at a depth-0 writer and the closing
branch at a depth-1 writer. -/
theorem C10_close_multipart_witness :
    (⟨[], [], 0, [], []⟩ : MessageWriter).closeMultipart =
      ⟨[], [], 0, [], []⟩ ∧
    ((⟨[], [], 1, ["b"], []⟩ : MessageWriter).closeMultipart).depth = 0 := by
  constructor
  · exact (C10_close_multipart ⟨[], [], 0, [], []⟩).1 rfl
  · have h :=
      (C10_close_multipart ⟨[], [], 1, ["b"], []⟩).2 (by norm_num)
    simpa using h.1

theorem openMultipart_depth (w : MessageWriter) (k : String) :
    (w.openMultipart k).depth = w.depth + 1 := rfl

theorem openMultipart_trace (w : MessageWriter) (k : String) :
    (w.openMultipart k).trace = w.trace ++ [.openM k] := rfl

theorem openMultipart_hget (w : MessageWriter) (k x : String)
    (hx : x ≠ "Content-Type") :
    hget (w.openMultipart k).header x = hget w.header x := by
  rw [MessageWriter.openMultipart]
  dsimp only
  split
  · exact hget_hset_ne _ _ _ _ (Ne.symm hx)
  · rfl

theorem closeMultipart_depth (w : MessageWriter) :
    w.closeMultipart.depth = w.depth - 1 := by
  rw [MessageWriter.closeMultipart]
  split
  · rename_i h
    rw [h]
  · rfl

theorem closeMultipart_header (w : MessageWriter) :
    w.closeMultipart.header = w.header := by
  rw [MessageWriter.closeMultipart]
  split <;> rfl

theorem closeMultipart_trace (w : MessageWriter) :
    w.closeMultipart.trace =
      if w.depth = 0 then w.trace else w.trace ++ [.closeM] := by
  rw [MessageWriter.closeMultipart]
  split <;> simp_all

theorem write_depth (w : MessageWriter) (h : Header) (b : List ℕ)
    (e : Encoding) : (w.write h b e).depth = w.depth := by
  rw [MessageWriter.write, MessageWriter.writeBody, MessageWriter.writeHeader]
  split <;> rfl

theorem write_trace (w : MessageWriter) (h : Header) (b : List ℕ)
    (e : Encoding) : (w.write h b e).trace = w.trace := by
  rw [MessageWriter.write, MessageWriter.writeBody, MessageWriter.writeHeader]
  split <;> rfl

theorem hget_foldl_hset_of_ne (h : Header) (acc : Header) (x : String)
    (hx : ∀ kv ∈ h, kv.1 ≠ x) :
    hget (h.foldl (fun acc kv => hset acc kv.1 kv.2) acc) x = hget acc x := by
  induction h generalizing acc with
  | nil => rfl
  | cons kv t ih =>
    simp only [List.foldl_cons]
    rw [ih _ (fun kv' hkv' => hx kv' (List.mem_cons_of_mem _ hkv'))]
    exact hget_hset_ne _ _ _ _ (hx kv (List.mem_cons_self _ _))

theorem write_hget_of_ne (w : MessageWriter) (h : Header) (b : List ℕ)
    (e : Encoding) (x : String) (hx : ∀ kv ∈ h, kv.1 ≠ x) :
    hget (w.write h b e).header x = hget w.header x := by
  rw [MessageWriter.write]
  show hget (w.writeHeader h).header x = hget w.header x
  rw [MessageWriter.writeHeader]
  split
  · exact hget_foldl_hset_of_ne h w.header x hx
  · rfl

theorem write_header_of_depth_ne (w : MessageWriter) (h : Header)
    (b : List ℕ) (e : Encoding) (hd : w.depth ≠ 0) :
    (w.write h b e).header = w.header := by
  rw [MessageWriter.write]
  show (w.writeHeader h).header = w.header
  rw [MessageWriter.writeHeader, if_neg hd]
  rfl

theorem write_part_hget_mv (w : MessageWriter) (msg : Message) (pt : part)
    (hd : w.depth = 0) :
    hget (w.write (partHeader msg pt) pt.body msg.encoding).header
      "Mime-Version" = some ["1.0"] := by
  rw [MessageWriter.write]
  show hget (w.writeHeader (partHeader msg pt)).header "Mime-Version" =
    some ["1.0"]
  rw [MessageWriter.writeHeader, if_pos hd]
  simp only [partHeader, List.foldl_cons, List.foldl_nil]
  rw [hget_hset_ne _ _ _ _ (by decide), hget_hset_ne _ _ _ _ (by decide),
    hget_hset_self]

theorem partHeader_keys (msg : Message) (pt : part) (x : String)
    (hx : x = "Mime-Version" → False) (hc : x = "Content-Type" → False)
    (he : x = "Content-Transfer-Encoding" → False) :
    ∀ kv ∈ partHeader msg pt, kv.1 ≠ x := by
  intro kv hkv
  simp only [partHeader, List.mem_cons, List.not_mem_nil, or_false] at hkv
  rcases hkv with rfl | rfl | rfl
  · exact fun he' => hx he'.symm
  · exact fun he' => hc he'.symm
  · exact fun he' => he he'.symm

theorem fileHeader_keys_mvdate (f : File) (att : Bool) (x : String)
    (hx : x = "Mime-Version" ∨ x = "Date") :
    ∀ kv ∈ fileHeader f att, kv.1 ≠ x := by
  intro kv hkv
  cases att <;>
    simp only [fileHeader, List.cons_append, List.nil_append,
      Bool.false_eq_true, if_false, if_true, List.mem_cons,
      List.not_mem_nil, or_false] at hkv
  · rcases hkv with rfl | rfl | rfl | rfl <;>
      rcases hx with rfl | rfl <;> simp
  · rcases hkv with rfl | rfl | rfl <;>
      rcases hx with rfl | rfl <;> simp

theorem addFiles_nil (w : MessageWriter) (att : Bool) :
    w.addFiles [] att = w := rfl

theorem addFiles_cons (w : MessageWriter) (f : File) (t : List File)
    (att : Bool) :
    w.addFiles (f :: t) att =
      (w.write (fileHeader f att) f.Content f.encoding).addFiles t att := rfl

theorem partsFold_depth (parts : List part) (msg : Message)
    (w : MessageWriter) :
    (parts.foldl
      (fun w pt => w.write (partHeader msg pt) pt.body msg.encoding)
      w).depth = w.depth := by
  induction parts generalizing w with
  | nil => rfl
  | cons pt t ih =>
    rw [List.foldl_cons, ih, write_depth]

theorem partsFold_trace (parts : List part) (msg : Message)
    (w : MessageWriter) :
    (parts.foldl
      (fun w pt => w.write (partHeader msg pt) pt.body msg.encoding)
      w).trace = w.trace := by
  induction parts generalizing w with
  | nil => rfl
  | cons pt t ih =>
    rw [List.foldl_cons, ih, write_trace]

theorem partsFold_hget_date (parts : List part) (msg : Message)
    (w : MessageWriter) :
    hget (parts.foldl
      (fun w pt => w.write (partHeader msg pt) pt.body msg.encoding)
      w).header "Date" = hget w.header "Date" := by
  induction parts generalizing w with
  | nil => rfl
  | cons pt t ih =>
    rw [List.foldl_cons, ih,
      write_hget_of_ne _ _ _ _ _
        (partHeader_keys msg pt "Date" (by simp) (by simp) (by simp))]

theorem partsFold_hget_mv (parts : List part) (msg : Message)
    (w : MessageWriter) (hd : w.depth = 0) (hne : parts ≠ []) :
    hget (parts.foldl
      (fun w pt => w.write (partHeader msg pt) pt.body msg.encoding)
      w).header "Mime-Version" = some ["1.0"] := by
  induction parts generalizing w with
  | nil => exact absurd rfl hne
  | cons pt t ih =>
    rw [List.foldl_cons]
    by_cases ht : t = []
    · subst ht
      simp only [List.foldl_nil]
      exact write_part_hget_mv w msg pt hd
    · exact ih _ (by rw [write_depth]; exact hd) ht

theorem partsFold_header_of_depth_ne (parts : List part) (msg : Message)
    (w : MessageWriter) (hd : w.depth ≠ 0) :
    (parts.foldl
      (fun w pt => w.write (partHeader msg pt) pt.body msg.encoding)
      w).header = w.header := by
  induction parts generalizing w with
  | nil => rfl
  | cons pt t ih =>
    rw [List.foldl_cons, ih _ (by rw [write_depth]; exact hd),
      write_header_of_depth_ne _ _ _ _ hd]

theorem addFiles_depth (w : MessageWriter) (files : List File)
    (att : Bool) : (w.addFiles files att).depth = w.depth := by
  induction files generalizing w with
  | nil => rfl
  | cons f t ih =>
    rw [addFiles_cons, ih, write_depth]

theorem addFiles_trace (w : MessageWriter) (files : List File)
    (att : Bool) : (w.addFiles files att).trace = w.trace := by
  induction files generalizing w with
  | nil => rfl
  | cons f t ih =>
    rw [addFiles_cons, ih, write_trace]

theorem addFiles_hget_mvdate (w : MessageWriter) (files : List File)
    (att : Bool) (x : String) (hx : x = "Mime-Version" ∨ x = "Date") :
    hget (w.addFiles files att).header x = hget w.header x := by
  induction files generalizing w with
  | nil => rfl
  | cons f t ih =>
    rw [addFiles_cons, ih,
      write_hget_of_ne _ _ _ _ _ (fileHeader_keys_mvdate f att x hx)]

/-- The multipart kinds that Export opens, outermost first. -/
def exportKinds (msg : Message) : List String :=
  (if msg.hasMixedPart then ["mixed"] else []) ++
    (if msg.hasRelatedPart then ["related"] else []) ++
    (if msg.hasAlternativePart then ["alternative"] else [])

/-- Nesting depth reached after a prefix of the open/close call log. -/
def depthTrace (tr : List MCall) : ℤ :=
  tr.foldl (fun d c => match c with | .openM _ => d + 1 | .closeM => d - 1) 0

/-- Number of openMultipart calls in a call log. -/
def countOpens (tr : List MCall) : ℕ :=
  tr.countP (fun c => match c with | .openM _ => true | .closeM => false)

/-- Number of effective closeMultipart calls in a call log. -/
def countCloses (tr : List MCall) : ℕ :=
  tr.countP (fun c => match c with | .openM _ => false | .closeM => true)

theorem depthTrace_aux (tr : List MCall) (init : ℤ) :
    tr.foldl
      (fun d c => match c with | .openM _ => d + 1 | .closeM => d - 1)
      init = init + depthTrace tr := by
  induction tr generalizing init with
  | nil => simp [depthTrace]
  | cons c t ih =>
    cases c with
    | openM k =>
      simp only [depthTrace, List.foldl_cons]
      rw [ih, ih]
      ring
    | closeM =>
      simp only [depthTrace, List.foldl_cons]
      rw [ih, ih]
      ring

theorem depthTrace_append (a b : List MCall) :
    depthTrace (a ++ b) = depthTrace a + depthTrace b := by
  simp only [depthTrace, List.foldl_append]
  rw [depthTrace_aux]
  rfl

theorem depthTrace_opens (ks : List String) :
    depthTrace (ks.map MCall.openM) = ks.length := by
  induction ks with
  | nil => simp [depthTrace]
  | cons k t ih =>
    simp only [List.map_cons, depthTrace, List.foldl_cons]
    rw [depthTrace_aux]
    show (0 : ℤ) + 1 + depthTrace (t.map MCall.openM) = ((k :: t).length : ℤ)
    rw [ih]
    simp only [List.length_cons]
    push_cast
    ring

theorem depthTrace_closes (n : ℕ) :
    depthTrace (List.replicate n MCall.closeM) = -(n : ℤ) := by
  induction n with
  | zero => simp [depthTrace]
  | succ n ih =>
    rw [List.replicate_succ]
    simp only [depthTrace, List.foldl_cons]
    rw [depthTrace_aux]
    show (0 : ℤ) - 1 + depthTrace (List.replicate n MCall.closeM) =
      -((n + 1 : ℕ) : ℤ)
    rw [ih]
    push_cast
    ring

theorem countOpens_shape (ks : List String) (n : ℕ) :
    countOpens (ks.map MCall.openM ++ List.replicate n MCall.closeM) =
      ks.length := by
  simp only [countOpens, List.countP_append]
  have h1 : ∀ l : List String,
      (l.map MCall.openM).countP
        (fun c => match c with | .openM _ => true | .closeM => false) =
        l.length := by
    intro l
    induction l with
    | nil => rfl
    | cons k t ih => simp [List.countP_cons, ih]
  have h2 : ∀ m : ℕ,
      (List.replicate m MCall.closeM).countP
        (fun c => match c with | .openM _ => true | .closeM => false) = 0 := by
    intro m
    induction m with
    | zero => rfl
    | succ m ih => simp [List.replicate_succ, List.countP_cons, ih]
  rw [h1, h2]
  omega

theorem countCloses_shape (ks : List String) (n : ℕ) :
    countCloses (ks.map MCall.openM ++ List.replicate n MCall.closeM) = n := by
  simp only [countCloses, List.countP_append]
  have h1 : ∀ l : List String,
      (l.map MCall.openM).countP
        (fun c => match c with | .openM _ => false | .closeM => true) = 0 := by
    intro l
    induction l with
    | nil => rfl
    | cons k t ih => simp [List.countP_cons, ih]
  have h2 : ∀ m : ℕ,
      (List.replicate m MCall.closeM).countP
        (fun c => match c with | .openM _ => false | .closeM => true) = m := by
    intro m
    induction m with
    | zero => rfl
    | succ m ih => simp [List.replicate_succ, List.countP_cons, ih]
  rw [h1, h2]
  omega

theorem depthTrace_shape (ks : List String) (n k : ℕ) :
    depthTrace
      ((ks.map MCall.openM ++ List.replicate n MCall.closeM).take k) =
      (min k ks.length : ℤ) - min (k - ks.length) n := by
  rw [List.take_append_eq_append_take, depthTrace_append]
  have h1 : (ks.map MCall.openM).take k = (ks.take k).map MCall.openM := by
    rw [List.map_take]
  rw [h1, depthTrace_opens, List.take_replicate, depthTrace_closes,
    List.length_map, List.length_take]
  push_cast
  omega

theorem newMessageWriter_depth (msg : Message) (d : String) :
    (newMessageWriter msg d).depth = 0 := rfl

theorem newMessageWriter_trace (msg : Message) (d : String) :
    (newMessageWriter msg d).trace = [] := rfl

theorem exportW_trace_depth (msg : Message) (dateStr : String) :
    (msg.exportW dateStr).trace =
      (exportKinds msg).map MCall.openM ++
        List.replicate (exportKinds msg).length MCall.closeM ∧
    (msg.exportW dateStr).depth = 0 := by
  rw [Message.exportW, exportKinds]
  cases hm : msg.hasMixedPart <;> cases hr : msg.hasRelatedPart <;>
    cases ha : msg.hasAlternativePart <;>
    simp only [hm, hr, ha, Bool.false_eq_true, if_false, if_true,
      List.nil_append, List.append_nil] <;>
    constructor <;>
    simp [openMultipart_trace, openMultipart_depth, closeMultipart_trace,
      closeMultipart_depth, partsFold_trace, partsFold_depth, addFiles_trace,
      addFiles_depth, newMessageWriter_depth, newMessageWriter_trace]

/-- C4: for every message, the Export call log is the opens of
`exportKinds` (mixed outermost, then related, then alternative innermost)
followed by exactly as many closes, mirrored in LIFO order; the number of
closes equals the number of opens, every prefix of the log keeps the
nesting depth between 0 and 3, and the writer depth is 0 when Export
returns. -/
theorem C4_open_close_discipline (msg : Message) (dateStr : String) :
    (msg.exportW dateStr).trace =
      (exportKinds msg).map MCall.openM ++
        List.replicate (exportKinds msg).length MCall.closeM ∧
    (exportKinds msg).length ≤ 3 ∧
    countOpens (msg.exportW dateStr).trace =
      countCloses (msg.exportW dateStr).trace ∧
    (∀ k : ℕ, 0 ≤ depthTrace ((msg.exportW dateStr).trace.take k) ∧
      depthTrace ((msg.exportW dateStr).trace.take k) ≤ 3) ∧
    (msg.exportW dateStr).depth = 0 := by
  obtain ⟨htr, hd⟩ := exportW_trace_depth msg dateStr
  have hlen : (exportKinds msg).length ≤ 3 := by
    rw [exportKinds]
    split_ifs <;> simp
  refine ⟨htr, hlen, ?_, ?_, hd⟩
  · rw [htr, countOpens_shape, countCloses_shape]
  · intro k
    rw [htr, depthTrace_shape]
    constructor
    · omega
    · have h1 : min (k : ℕ) (exportKinds msg).length ≤
          (exportKinds msg).length := Nat.min_le_right _ _
      omega

theorem newMessageWriter_hget_date (msg : Message) (d : String) :
    hget (newMessageWriter msg d).header "Date" =
      some ((hget msg.header "Date").getD [d]) := by
  rw [newMessageWriter]
  dsimp only
  by_cases hmv : (hget msg.header "Mime-Version").isNone
  · rw [if_pos hmv]
    have hdd : hget (hset msg.header "Mime-Version" ["1.0"]) "Date" =
        hget msg.header "Date" := hget_hset_ne _ _ _ _ (by decide)
    by_cases hd :
        (hget (hset msg.header "Mime-Version" ["1.0"]) "Date").isNone
    · rw [if_pos hd, hget_hset_self]
      rw [hdd, Option.isNone_iff_eq_none] at hd
      rw [hd]
      rfl
    · rw [if_neg hd, hdd]
      rw [hdd, Option.isNone_iff_eq_none] at hd
      cases hv : hget msg.header "Date" with
      | none => exact absurd hv hd
      | some v => simp
  · rw [if_neg hmv]
    by_cases hd : (hget msg.header "Date").isNone
    · rw [if_pos hd, hget_hset_self]
      rw [Option.isNone_iff_eq_none] at hd
      rw [hd]
      rfl
    · rw [if_neg hd]
      rw [Option.isNone_iff_eq_none] at hd
      cases hv : hget msg.header "Date" with
      | none => exact absurd hv hd
      | some v => simp [hv]

theorem newMessageWriter_hget_mv (msg : Message) (d : String) :
    hget (newMessageWriter msg d).header "Mime-Version" =
      some ((hget msg.header "Mime-Version").getD ["1.0"]) := by
  rw [newMessageWriter]
  dsimp only
  by_cases hmv : (hget msg.header "Mime-Version").isNone
  · rw [if_pos hmv]
    rw [Option.isNone_iff_eq_none] at hmv
    by_cases hd :
        (hget (hset msg.header "Mime-Version" ["1.0"]) "Date").isNone
    · rw [if_pos hd, hget_hset_ne _ _ _ _ (by decide), hget_hset_self, hmv]
      rfl
    · rw [if_neg hd, hget_hset_self, hmv]
      rfl
  · rw [if_neg hmv]
    rw [Option.isNone_iff_eq_none] at hmv
    by_cases hd : (hget msg.header "Date").isNone
    · rw [if_pos hd, hget_hset_ne _ _ _ _ (by decide)]
      cases hv : hget msg.header "Mime-Version" with
      | none => exact absurd hv hmv
      | some v => simp [hv]
    · rw [if_neg hd]
      cases hv : hget msg.header "Mime-Version" with
      | none => exact absurd hv hmv
      | some v => simp [hv]

theorem ite_open_hget (c : Prop) [Decidable c] (w : MessageWriter)
    (k x : String) (hx : x ≠ "Content-Type") :
    hget (if c then w.openMultipart k else w).header x = hget w.header x := by
  split
  · exact openMultipart_hget _ _ _ hx
  · rfl

theorem ite_close_header (c : Prop) [Decidable c] (w : MessageWriter) :
    (if c then w.closeMultipart else w).header = w.header := by
  split
  · exact closeMultipart_header _
  · rfl

theorem exportW_hget_date (msg : Message) (d : String) :
    hget (msg.exportW d).header "Date" =
      hget (newMessageWriter msg d).header "Date" := by
  rw [Message.exportW]
  rw [ite_close_header, addFiles_hget_mvdate _ _ _ _ (Or.inr rfl),
    ite_close_header, addFiles_hget_mvdate _ _ _ _ (Or.inr rfl),
    ite_close_header, partsFold_hget_date,
    ite_open_hget _ _ _ _ (by decide), ite_open_hget _ _ _ _ (by decide),
    ite_open_hget _ _ _ _ (by decide)]

theorem openMultipart_hget_mv (w : MessageWriter) (k : String) :
    hget (w.openMultipart k).header "Mime-Version" =
      hget w.header "Mime-Version" :=
  openMultipart_hget _ _ _ (by decide)

theorem exportW_hget_mv (msg : Message) (d : String) :
    hget (msg.exportW d).header "Mime-Version" =
      (if msg.parts ≠ [] ∧ msg.hasMixedPart = false ∧
          msg.hasRelatedPart = false ∧ msg.hasAlternativePart = false
        then some ["1.0"]
        else hget (newMessageWriter msg d).header "Mime-Version") := by
  rw [Message.exportW]
  rw [ite_close_header, addFiles_hget_mvdate _ _ _ _ (Or.inl rfl),
    ite_close_header, addFiles_hget_mvdate _ _ _ _ (Or.inl rfl),
    ite_close_header]
  cases hm : msg.hasMixedPart <;> cases hr : msg.hasRelatedPart <;>
    cases ha : msg.hasAlternativePart <;>
    simp only [hm, hr, ha, Bool.false_eq_true, Bool.true_eq_false, if_false,
      if_true, false_and, and_false, and_true, eq_self_iff_true, ne_eq] <;>
    first
    | (rw [partsFold_header_of_depth_ne _ _ _
          (by simp [openMultipart_depth, newMessageWriter_depth])]
       simp only [openMultipart_hget_mv])
    | (by_cases hp : msg.parts = []
       · rw [hp]
         simp only [List.foldl_nil]
         rw [if_neg (by simp [hp])]
       · rw [partsFold_hget_mv msg.parts msg _ (newMessageWriter_depth msg d)
           hp, if_pos hp])

/-- C7: the exported header map always contains `Date` and
`Mime-Version`.  `Date` keeps a caller-supplied value and defaults to the
formatted time of the injectable time source otherwise.  The claim also
says a caller-supplied `Mime-Version` is kept; that fails when the
message has exactly one part and no embedded files or attachments — the
single part is then written at depth 0 and its body header resets
`Mime-Version` to `1.0` in the top-level map.  Amended: `Mime-Version` is
the caller's value (default `1.0` when absent) except in that single-part
case, where it is always `1.0`. -/
theorem C7_default_headers (msg : Message) (dateStr : String) :
    hget (msg.Export dateStr).2.header "Date" =
      some ((hget msg.header "Date").getD [dateStr]) ∧
    hget (msg.Export dateStr).2.header "Mime-Version" =
      some (if msg.parts.length = 1 ∧ msg.embedded = [] ∧
          msg.attachments = [] then ["1.0"]
        else (hget msg.header "Mime-Version").getD ["1.0"]) := by
  have hexp : (msg.Export dateStr).2.header = (msg.exportW dateStr).header :=
    rfl
  constructor
  · rw [hexp, exportW_hget_date, newMessageWriter_hget_date]
  · rw [hexp, exportW_hget_mv]
    by_cases hc : msg.parts ≠ [] ∧ msg.hasMixedPart = false ∧
        msg.hasRelatedPart = false ∧ msg.hasAlternativePart = false
    · rw [if_pos hc]
      obtain ⟨hp, hm, hr, ha⟩ := hc
      have hp1 : 0 < msg.parts.length := List.length_pos.mpr hp
      simp only [Message.hasMixedPart, decide_eq_false_iff_not] at hm
      simp only [Message.hasRelatedPart, decide_eq_false_iff_not] at hr
      simp only [Message.hasAlternativePart, decide_eq_false_iff_not] at ha
      have hatt : msg.attachments = [] := List.length_eq_zero.mp (by omega)
      have hemb : msg.embedded = [] := List.length_eq_zero.mp (by omega)
      have hlen1 : msg.parts.length = 1 := by omega
      rw [if_pos ⟨hlen1, hemb, hatt⟩]
    · rw [if_neg hc, newMessageWriter_hget_mv]
      have hcc : ¬(msg.parts.length = 1 ∧ msg.embedded = [] ∧
          msg.attachments = []) := by
        intro hand
        obtain ⟨h1, h2, h3⟩ := hand
        apply hc
        refine ⟨?_, ?_, ?_, ?_⟩
        · intro he
          rw [he] at h1
          simp at h1
        · simp [Message.hasMixedPart, h3]
        · simp [Message.hasRelatedPart, h2]
        · simp [Message.hasAlternativePart, h1]
      rw [if_neg hcc]

/-- The C7 counterexample message: a caller-set `Mime-Version: 2.0`, one
text part, no files. -/
def c7msg : Message :=
  ⟨[("Mime-Version", ["2.0"])], [⟨"text/plain", [104, 105]⟩], [], [],
    "UTF-8", .quotedPrintable, none⟩

/-- C7 counterexample: the caller supplied `Mime-Version: 2.0`, but the
exported header carries `1.0` — the single part's headers merged into the
top-level map overwrite the caller's value, refuting the kept-if-present
part of the claim. -/
theorem C7_default_headers_counterexample :
    hget c7msg.header "Mime-Version" = some ["2.0"] ∧
    hget (c7msg.Export "Mon, 01 Jan 2024 00:00:00 +0000").2.header
      "Mime-Version" = some ["1.0"] := by
  constructor
  · rfl
  · rfl
